import Mathlib

/-!
Verification development for the git ingestion connector.

Go strings are modelled as `List Char` (`GoStr`), Go maps as association
lists with replace-on-insert semantics, and the relevant functions of the
connector are embedded as executable Lean definitions, translated
branch-for-branch from the source.  Theorems at the end settle the
specification claims against these definitions.
-/

namespace InsightsGit

/-- Go strings, modelled as lists of characters. -/
abbrev GoStr := List Char

/-- Conversion from Lean string literals to the `GoStr` model. -/
def gs (s : String) : GoStr := s.data

/-- Model of Go `strings.Contains`: does `pat` occur as a contiguous
substring of `s`?  (`strings.Contains(s, "")` is true, as in Go.) -/
def containsSub : GoStr → GoStr → Bool
  | [], pat => decide (pat = [])
  | c :: rest, pat => pat.isPrefixOf (c :: rest) || containsSub rest pat

/-- Model of Go `strings.Replace(s, pat, rep, 1)` for a nonempty `pat`:
replace the first occurrence of `pat` in `s` by `rep`. -/
def replaceFirst : GoStr → GoStr → GoStr → GoStr
  | [], _, _ => []
  | c :: rest, pat, rep =>
    if pat.isPrefixOf (c :: rest) then rep ++ (c :: rest).drop pat.length
    else c :: replaceFirst rest pat rep

/-- Model of Go `strings.Index(s, pat)`: index of the first occurrence of
`pat` in `s`, or `none` (Go returns `-1`). -/
def goIndex : GoStr → GoStr → Option Nat
  | s, pat =>
    if pat.isPrefixOf s then some 0
    else
      match s with
      | [] => none
      | _ :: rest => (goIndex rest pat).map (· + 1)

/-- Model of the shared helper `IndexAt(s, pat, from)` (external
`insights-datasource-shared` library): index of the first occurrence of
`pat` in `s` at position `from` or later, or `none` (Go returns `-1`). -/
def goIndexAt (s pat : GoStr) (start : Nat) : Option Nat :=
  (goIndex (s.drop start) pat).map (· + start)

/-- Model of Go `strings.Split(s, sep)` for a single-character separator:
the list of maximal separator-free segments (never empty). -/
def splitChar (sep : Char) : GoStr → List GoStr
  | [] => [[]]
  | c :: rest =>
    match splitChar sep rest with
    | [] => [[c]]
    | h :: t => if c = sep then [] :: h :: t else (c :: h) :: t

/-- Fuelled worker for `goSplit`; the fuel is an upper bound on the number
of characters still to be consumed, so `goSplit` below never exhausts it. -/
def goSplitF : Nat → GoStr → GoStr → List GoStr
  | 0, s, _ => [s]
  | fuel + 1, s, sep =>
    match s with
    | [] => [[]]
    | c :: rest =>
      if sep ≠ [] ∧ sep.isPrefixOf (c :: rest) then
        [] :: goSplitF fuel ((c :: rest).drop sep.length) sep
      else
        match goSplitF fuel rest sep with
        | [] => [[c]]
        | h :: t => (c :: h) :: t

/-- Model of Go `strings.Split(s, sep)` for a nonempty separator: splits at
the leftmost, non-overlapping occurrences of `sep`. -/
def goSplit (s sep : GoStr) : List GoStr := goSplitF (s.length + 1) s sep

/-- Association-list lookup keyed on the first component; models reading a
Go map. -/
def lookupKey {β : Type} : List (GoStr × β) → GoStr → Option β
  | [], _ => none
  | (k, v) :: rest, key => if k = key then some v else lookupKey rest key

/-- Association-list insertion with replace-on-collision; models writing a
Go map (`m[k] = v`). -/
def mapInsert {β : Type} : List (GoStr × β) → GoStr → β → List (GoStr × β)
  | [], key, v => [(key, v)]
  | (k, w) :: rest, key, v =>
    if k = key then (k, v) :: rest else (k, w) :: mapInsert rest key v

/-- Model of Go `strings.TrimSpace` (whitespace trimmed from both ends). -/
def goTrimSpace (s : GoStr) : GoStr :=
  ((s.dropWhile Char.isWhitespace).reverse.dropWhile Char.isWhitespace).reverse

/-- Characters of a decimal digit run. -/
def digitsVal (s : GoStr) : Int :=
  s.foldl (fun acc c => acc * 10 + (c.toNat - '0'.toNat : Int)) 0

/-- Model of Go `strconv.Atoi` followed by discarding the error: on any
input that is not an optionally-signed decimal number the Go caller keeps
the zero value `0`.  (Machine-width overflow is not modelled; the inputs
fed to it by the connector are small line counts.) -/
def goAtoi (s : GoStr) : Int :=
  match s with
  | '-' :: rest => if rest ≠ [] ∧ rest.all Char.isDigit then -(digitsVal rest) else 0
  | '+' :: rest => if rest ≠ [] ∧ rest.all Char.isDigit then digitsVal rest else 0
  | _ => if s ≠ [] ∧ s.all Char.isDigit then digitsVal s else 0

/-- `UnknownExtension` - empty file extension type (source constant). -/
def UnknownExtension : GoStr := gs "UNKNOWN"

/-- `GitMaxCommitProperties` - maximum properties that can be set on the
commit object (source constant). -/
def GitMaxCommitProperties : Nat := 1000

/-- `GitMaxMsgLength` - maximum message length, `0x4000` in the source. -/
def GitMaxMsgLength : Nat := 0x4000

/-- `ParseFileExtension` - return file extension if present; translated
from the source: split on `"."`, take the last part, `"UNKNOWN"` when the
part list is empty or the last part is the empty string. -/
def ParseFileExtension (filename : GoStr) : GoStr :=
  let parts := goSplit filename (gs ".")
  match parts.getLast? with
  | none => UnknownExtension
  | some extension => if extension = [] then UnknownExtension else extension

/-- `ExtractPrevFileName` - extracts the previous file name (before a
rename/move); translated from the source: with `i`/`j` the first indexes
of `{`/`}` and `k` the first index of `" => "` at or after `i`, the result
is `f[:i] + f[i+1:k] + f[j+1:]`; when braces are absent but `" => "`
occurs, the part before the first `" => "`; otherwise `f` itself.  As in
the source, braces without an `" => "` after `i` leave the zero value. -/
def ExtractPrevFileName (f : GoStr) : GoStr :=
  match goIndex f (gs "\x7b"), goIndex f (gs "\x7d") with
  | some i, some j =>
    (match goIndexAt f (gs " => ") i with
     | some k => f.take i ++ (f.drop (i + 1)).take (k - (i + 1)) ++ f.drop (j + 1)
     | none => [])
  | _, _ =>
    if (goIndex f (gs " => ")).isSome then (goSplit f (gs " => ")).headD []
    else f

/-- Per-file record of the parser's `CommitFiles` map; each field models
one key of the untyped Go per-file map, `none` meaning the key is unset. -/
structure FileEntry where
  file : Option GoStr := none
  added : Option Int := none
  removed : Option Int := none
  modes : Option (List GoStr) := none
  indexes : Option (List GoStr) := none
  action : Option GoStr := none
  newfile : Option GoStr := none
  deriving Repr, DecidableEq, Inhabited

/-- `ParseStats` - parse a stats line's captured groups into the
`CommitFiles` map; translated from the source: the path is rewritten by
`ExtractPrevFileName` before indexing, and added/removed accumulate onto
any previous entry for the rewritten path. -/
def ParseStats (commitFiles : List (GoStr × FileEntry)) (dAdded dRemoved dFile : GoStr) :
    List (GoStr × FileEntry) :=
  let fileName := ExtractPrevFileName dFile
  let prev := lookupKey commitFiles fileName
  let entry : FileEntry := match prev with
    | none => { file := some fileName }
    | some e => e
  let prevAdded : Int := match prev with
    | none => 0
    | some e => e.added.getD 0
  let prevRemoved : Int := match prev with
    | none => 0
    | some e => e.removed.getD 0
  mapInsert commitFiles fileName
    { entry with
      added := some (prevAdded + goAtoi dAdded)
      removed := some (prevRemoved + goAtoi dRemoved) }

/-- `ParseAction` - parse an action line's captured groups into the
`CommitFiles` map; translated from the source: the entry is indexed by the
`file` group as captured, with no rewriting. -/
def ParseAction (commitFiles : List (GoStr × FileEntry))
    (dModes dIndexes dAction dFile dNewfile : GoStr) : List (GoStr × FileEntry) :=
  let modesAry : List GoStr :=
    if dModes = [] then [] else goSplit (goTrimSpace dModes) (gs " ")
  let indexesAry : List GoStr :=
    if dIndexes = [] then [] else goSplit (goTrimSpace dIndexes) (gs " ")
  let fileName := dFile
  let entry : FileEntry := (lookupKey commitFiles fileName).getD {}
  mapInsert commitFiles fileName
    { entry with
      modes := some modesAry
      indexes := some indexesAry
      action := some dAction
      file := some fileName
      newfile := some dNewfile }

/-- Space or tab, the `[ \t]` class of the source regexes. -/
def isSpaceTab (c : Char) : Bool := c = ' ' ∨ c = '\t'

/-- The `[a-zA-z0-9\-]` class of `GitHeaderPattern`; as in the source the
`A-z` range also covers the punctuation between `Z` and `a`. -/
def isHeaderNameChar (c : Char) : Bool :=
  ('a' ≤ c ∧ c ≤ 'z') ∨ ('A' ≤ c ∧ c ≤ 'z') ∨ ('0' ≤ c ∧ c ≤ '9') ∨ c = '-'

/-- Lowercase-hex class `[a-f0-9]` of the source regexes. -/
def isHexLower (c : Char) : Bool := ('a' ≤ c ∧ c ≤ 'f') ∨ ('0' ≤ c ∧ c ≤ '9')

/-- Model of a trailing `[ \t]+(.+)$` in the source regexes: a nonempty
greedy run of spaces/tabs followed by a nonempty newline-free remainder;
when the remainder would be empty, one space of a long run is given back,
as regex backtracking does. -/
def matchSpacesRest (s : GoStr) : Option GoStr :=
  let run := s.takeWhile isSpaceTab
  let rest := s.dropWhile isSpaceTab
  if run = [] then none
  else if rest ≠ [] then (if rest.contains '\n' then none else some rest)
  else if 2 ≤ run.length then some [run.getLastD ' ']
  else none

/-- `GitHeaderPattern` (`^([a-zA-z0-9\-]+)\:[ \t]+(.+)$`) as a matcher
returning the name/value captures. -/
def headerMatch (line : GoStr) : Option (GoStr × GoStr) :=
  let name := line.takeWhile isHeaderNameChar
  let after := line.dropWhile isHeaderNameChar
  if name = [] then none
  else
    match after with
    | ':' :: rest => (matchSpacesRest rest).map (fun v => (name, v))
    | _ => none

/-- The `(\d+|-)` alternative of `GitStatsPattern`: a maximal digit run is
preferred, otherwise a single dash. -/
def matchNumOrDash (s : GoStr) : Option (GoStr × GoStr) :=
  let digits := s.takeWhile Char.isDigit
  if digits ≠ [] then some (digits, s.drop digits.length)
  else
    match s with
    | '-' :: rest => some ([ '-' ], rest)
    | _ => none

/-- `GitStatsPattern` (`^(\d+|-)[ \t]+(\d+|-)[ \t]+(.+)$`) as a matcher
returning the added/removed/file captures. -/
def statsMatch (line : GoStr) : Option (GoStr × GoStr × GoStr) :=
  match matchNumOrDash line with
  | none => none
  | some (added, r1) =>
    let sp1 := r1.takeWhile isSpaceTab
    let r2 := r1.dropWhile isSpaceTab
    if sp1 = [] then none
    else
      match matchNumOrDash r2 with
      | none => none
      | some (removed, r3) => (matchSpacesRest r3).map (fun f => (added, removed, f))

/-- One repetition `\d{6}[ \t]` of the `modes` group of
`GitActionPattern`; returns the remaining input. -/
def matchMode (s : GoStr) : Option GoStr :=
  let six := s.take 6
  if six.length = 6 ∧ six.all Char.isDigit then
    match s.drop 6 with
    | c :: rest => if isSpaceTab c then some rest else none
    | [] => none
  else none

/-- One repetition `[a-f0-9]+\.{0,3}[ \t]` of the `indexes` group of
`GitActionPattern`; returns the remaining input. -/
def matchIndex (s : GoStr) : Option GoStr :=
  let hex := s.takeWhile isHexLower
  if hex = [] then none
  else
    let r := s.drop hex.length
    let dots := (r.takeWhile (· = '.')).take 3
    match r.drop dots.length with
    | c :: rest => if isSpaceTab c then some rest else none
    | [] => none

/-- Greedy `(X)+` followed by a continuation, with regex backtracking over
the repetition count: the largest repetition count whose continuation
succeeds wins.  Fuelled; every `step` consumes at least one character, so
fuel `s.length + 1` never runs out. -/
def repThen {α : Type} (step : GoStr → Option GoStr) (k : GoStr → Option α) :
    Nat → GoStr → Option (GoStr × α)
  | 0, _ => none
  | fuel + 1, s =>
    match step s with
    | none => none
    | some s2 =>
      match repThen step k fuel s2 with
      | some r => some r
      | none => (k s2).map (fun a => (s2, a))

/-- The captured groups of `GitActionPattern` used by `ParseAction`. -/
structure ActionGroups where
  modes : GoStr
  indexes : GoStr
  action : GoStr
  file : GoStr
  newfile : GoStr
  deriving Repr, DecidableEq

/-- The tail `([^\t]+)\t+([^\t]+)(?:\t+(.+))?$` of `GitActionPattern`:
action, file and optional newfile captures (the `newfile` capture is the
empty string when the optional group is absent, as the Go group map has). -/
def matchActionTail (s : GoStr) : Option (GoStr × GoStr × GoStr) :=
  let action := s.takeWhile (· ≠ '\t')
  let r1 := s.drop action.length
  if action = [] then none
  else
    let tabs := r1.takeWhile (· = '\t')
    let r2 := r1.drop tabs.length
    if tabs = [] then none
    else
      let file := r2.takeWhile (· ≠ '\t')
      let r3 := r2.drop file.length
      if file = [] then none
      else
        match r3 with
        | [] => some (action, file, [])
        | _ =>
          let tabs2 := r3.takeWhile (· = '\t')
          let r4 := r3.drop tabs2.length
          if tabs2 = [] then none
          else if r4 ≠ [] then (if r4.contains '\n' then none else some (action, file, r4))
          else if 2 ≤ tabs2.length then some (action, file, ['\t'])
          else none

/-- `GitActionPattern` as a matcher returning the groups `ParseAction`
consumes. -/
def actionMatch (line : GoStr) : Option ActionGroups :=
  let sc := line.takeWhile (· = ':')
  if sc = [] then none
  else
    let r0 := line.drop sc.length
    match repThen matchMode
        (fun s1 => repThen matchIndex
          (fun s2 => (matchActionTail s2).map (fun t => (s2, t)))
          (s1.length + 1) s1)
        (r0.length + 1) r0 with
    | none => none
    | some (r1, r2, _, t) =>
      some { modes := r0.take (r0.length - r1.length)
             indexes := r1.take (r1.length - r2.length)
             action := t.1
             file := t.2.1
             newfile := t.2.2 }

/-- The refs suffix `\((?P<refs>.+)\)$` of `GitCommitPattern`. -/
def refsGroupOk : GoStr → Bool
  | '(' :: rest =>
    2 ≤ rest.length ∧ rest.getLastD ' ' = ')' ∧ ¬ rest.dropLast.contains '\n'
  | _ => false

/-- The optional parents/refs tail of `GitCommitPattern` after the 40-hex
sha. -/
def matchAfterSha : GoStr → Bool
  | [] => true
  | c :: rest =>
    if ¬ isSpaceTab c then false
    else if refsGroupOk rest then true
    else
      match rest with
      | [] => false
      | p :: pr =>
        let run := pr.takeWhile (fun x => isHexLower x || isSpaceTab x)
        let rem := pr.drop run.length
        isHexLower p && !run.isEmpty &&
          (rem.isEmpty ||
            (match rem with
             | '(' :: _ =>
               isSpaceTab (run.getLastD 'x') && decide (2 ≤ run.length) && refsGroupOk rem
             | _ => false))

/-- `GitCommitPattern` as a boolean matcher (only the fact of a match is
needed where the file-state parser consults it). -/
def commitMatchBool : GoStr → Bool
  | 'c' :: 'o' :: 'm' :: 'm' :: 'i' :: 't' :: c :: rest =>
    isSpaceTab c ∧ (rest.take 40).length = 40 ∧ (rest.take 40).all isHexLower ∧
      matchAfterSha (rest.drop 40)
  | _ => false

/-- `GitParseStateCommit` parser state constant. -/
def GitParseStateCommit : Nat := 1

/-- `GitParseStateMessage` parser state constant. -/
def GitParseStateMessage : Nat := 3

/-- `GitParseStateFile` parser state constant. -/
def GitParseStateFile : Nat := 4

/-- `ParseFile` - parse one line in the file state; translated from the
source: a blank line moves to the commit state; an action-pattern match
goes to `ParseAction` and a stats-pattern match to `ParseStats`, both
reporting the line parsed with the state unchanged; anything else moves to
the commit state unparsed, flagging `empty` when the line opens the next
commit.  Returns (commit files, parser state, parsed, empty). -/
def ParseFile (commitFiles : List (GoStr × FileEntry)) (line : GoStr) :
    List (GoStr × FileEntry) × Nat × Bool × Bool :=
  if line = [] then (commitFiles, GitParseStateCommit, true, false)
  else
    match actionMatch line with
    | some g =>
      (ParseAction commitFiles g.modes g.indexes g.action g.file g.newfile,
       GitParseStateFile, true, false)
    | none =>
      match statsMatch line with
      | some (a, r, f) => (ParseStats commitFiles a r f, GitParseStateFile, true, false)
      | none =>
        if commitMatchBool line then (commitFiles, GitParseStateCommit, false, true)
        else (commitFiles, GitParseStateCommit, false, false)

/-- Values of the parser's untyped commit map: strings or string lists. -/
inductive CommitVal where
  | str (s : GoStr)
  | strList (l : List GoStr)
  deriving Repr, DecidableEq

/-- The commit map right after `ParseCommit` opened a commit: the four
keys `commit`, `parents`, `refs` and `branch` are set. -/
def mkParsedCommit (sha : GoStr) (parents refs : List GoStr) (branch : GoStr) :
    List (GoStr × CommitVal) :=
  [(gs "commit", CommitVal.str sha),
   (gs "parents", CommitVal.strList parents),
   (gs "refs", CommitVal.strList refs),
   (gs "branch", CommitVal.str branch)]

/-- `ParseHeader` - parse one line in the header state; translated from
the source: a blank line moves to the message state; a line matching the
header pattern stores `name -> value` on the commit map only while the map
holds fewer than `GitMaxCommitProperties` keys, and reports the line
parsed either way; any other line is an error.  Returns (commit map,
parser state, parsed, error?). -/
def ParseHeader (commit : List (GoStr × CommitVal)) (line : GoStr) :
    List (GoStr × CommitVal) × Nat × Bool × Bool :=
  if line = [] then (commit, GitParseStateMessage, true, false)
  else
    match headerMatch line with
    | none => (commit, 2, false, true)
    | some (name, value) =>
      if commit.length < GitMaxCommitProperties then
        (if name ≠ [] then mapInsert commit name (CommitVal.str value) else commit,
         2, true, false)
      else (commit, 2, true, false)

/-- Fold `ParseHeader` over a list of header lines (the error flag of a
line aborts the parse in the source; here erroring lines leave the map
unchanged, which is what the source does before aborting). -/
def parseHeaderLines (commit : List (GoStr × CommitVal)) (lines : List GoStr) :
    List (GoStr × CommitVal) :=
  lines.foldl (fun m line => (ParseHeader m line).1) commit

/-- One step of the ref normalisation inside `GetCommitBranch`: strip a
`tag: ` prefix, keep the part after the last `" -> "`, then delete the
first occurrence of `origin/` and of `refs/heads/`.  Returns
(is-tag, stripped ref). -/
def stripGCBRef (ref : GoStr) : Bool × GoStr :=
  let isTag := (gs "tag: ").isPrefixOf ref
  let r1 := if isTag then ref.drop 5 else ref
  let r2 := (goSplit r1 (gs " -> ")).getLastD r1
  let r3 := replaceFirst r2 (gs "origin/") []
  let r4 := replaceFirst r3 (gs "refs/heads/") []
  (isTag, r4)

/-- `GetCommitBranch` - get the commit branch from refs; translated from
the source loop body: tags are remembered (last wins), non-tag refs equal
to the default branch are skipped, every other non-tag ref overwrites the
candidate. -/
def gcbStep (defaultBranch : GoStr) (acc : GoStr × GoStr) (ref : GoStr) : GoStr × GoStr :=
  let s := stripGCBRef ref
  if s.1 then (s.2, acc.2)
  else if s.2 = defaultBranch then acc
  else (acc.1, s.2)

/-- `GetCommitBranch` - get the commit branch from refs (continued): the
loop folds `gcbStep` over the refs with the empty tag/branch state, then
an empty candidate falls back to the last tag and then to the default
branch. -/
def GetCommitBranch (defaultBranch : GoStr) (refs : List GoStr) : GoStr :=
  let r := refs.foldl (gcbStep defaultBranch) ([], [])
  if r.2 = [] then (if r.1 ≠ [] then r.1 else defaultBranch) else r.2

/-- `GetCommitURL` - return the commit URL and repository type for an
origin and SHA; translated branch-for-branch from the source.  The gerrit
branch calls `net/url` parsing from the Go standard library; that external
computation is abstracted as the `gerritFn` argument, which none of the
other branches consult. -/
def GetCommitURL (gerritFn : GoStr → GoStr → GoStr × GoStr) (origin hash : GoStr) :
    GoStr × GoStr :=
  if (gs "git://").isPrefixOf origin then
    (replaceFirst origin (gs "git://") (gs "http://") ++ gs "/commit/?id=" ++ hash, gs "git")
  else if (gs "http://git.").isPrefixOf origin || (gs "https://git.").isPrefixOf origin then
    (origin ++ gs "/commit/?id=" ++ hash, gs "git")
  else if containsSub origin (gs "github.com") then
    (origin ++ gs "/commit/" ++ hash, gs "github")
  else if containsSub origin (gs "gitlab.com") then
    (origin ++ gs "/-/commit/" ++ hash, gs "gitlab")
  else if containsSub origin (gs "bitbucket.org") then
    (origin ++ gs "/commits/" ++ hash, gs "bitbucket")
  else if containsSub origin (gs "gerrit") || containsSub origin (gs "review") then
    gerritFn origin hash
  else if containsSub origin (gs "git.") &&
      (!containsSub origin (gs "gerrit") || !containsSub origin (gs "review")) then
    (origin ++ gs "/commit/?id=" ++ hash, gs "unknown")
  else (origin ++ gs "/" ++ hash, gs "unknown")

/-- Message handling of `EnrichItem` (source lines 1004-1017): first line
becomes the title, the full message is kept in `message_analyzed`, and
`message` is truncated to `GitMaxMsgLength` characters when longer.
Returns (title, message_analyzed, message). -/
def enrichMessage (msg? : Option GoStr) : Option GoStr × Option GoStr × Option GoStr :=
  match msg? with
  | none => (none, none, none)
  | some msg =>
    let ary := splitChar '\n' msg
    (some (ary.headD []), some msg,
     some (if GitMaxMsgLength < msg.length then msg.take GitMaxMsgLength else msg))

/-- One `file_data` record as built by the files loop of `EnrichItem`. -/
structure FileData where
  action : GoStr
  name : GoStr
  added : Int
  removed : Int
  deriving Repr, DecidableEq

/-- The files loop of `EnrichItem` (source lines 1062-1103): entries
without an `action` key are skipped; missing `added`/`removed`/`file`
keys default to zero / the empty string. -/
def enrichFileData (files : List FileEntry) : List FileData :=
  files.filterMap (fun file =>
    match file.action with
    | none => none
    | some act =>
      some { action := act
             name := file.file.getD []
             added := file.added.getD 0
             removed := file.removed.getD 0 })

/-- `rich["files"]` of `EnrichItem`: the count of file entries carrying an
action (incremented in lockstep with the `file_data` records). -/
def enrichNFiles (files : List FileEntry) : Nat :=
  (files.filter (fun file => file.action.isSome)).length

/-- `rich["lines_added"]` of `EnrichItem`: sum of the added counts of the
action-bearing file entries. -/
def enrichLinesAdded (files : List FileEntry) : Int :=
  ((enrichFileData files).map (·.added)).sum

/-- `rich["lines_removed"]` of `EnrichItem`. -/
def enrichLinesRemoved (files : List FileEntry) : Int :=
  ((enrichFileData files).map (·.removed)).sum

/-- `commit.MergeCommit = len(fileAry) == 0` (source line 1377). -/
def mergeCommit (fileData : List FileData) : Bool := fileData.length = 0

/-- One extension bucket of the emitted commit (`git.CommitFilesByType`). -/
structure CommitFilesByType where
  type : GoStr
  linesAdded : Int := 0
  linesRemoved : Int := 0
  filesCreated : Int := 0
  filesModified : Int := 0
  filesDeleted : Int := 0
  deriving Repr, DecidableEq, Inhabited

/-- One step of the extension-bucket loop of `GetModelData` (source lines
1343-1365): empty names are skipped, the bucket is keyed by
`ParseFileExtension`, line counts accumulate, and the action decides which
file counter is incremented (`M` modified, `D` deleted, else created). -/
def addFileToBuckets (buckets : List (GoStr × CommitFilesByType)) (fd : FileData) :
    List (GoStr × CommitFilesByType) :=
  if fd.name = [] then buckets
  else
    let ext := ParseFileExtension fd.name
    let obj := (lookupKey buckets ext).getD { type := ext }
    let obj := { obj with
      linesAdded := obj.linesAdded + fd.added
      linesRemoved := obj.linesRemoved + fd.removed }
    let obj :=
      if fd.action = gs "M" then { obj with filesModified := obj.filesModified + 1 }
      else if fd.action = gs "D" then { obj with filesDeleted := obj.filesDeleted + 1 }
      else { obj with filesCreated := obj.filesCreated + 1 }
    mapInsert buckets ext obj

/-- The extension buckets built by `GetModelData` for a commit's
`file_data`. -/
def commitFileBuckets (fileData : List FileData) : List (GoStr × CommitFilesByType) :=
  fileData.foldl addFileToBuckets []

/-- The bucket types (`CommitFilesByType.Type`) emitted for a commit. -/
def commitFileTypes (fileData : List FileData) : List GoStr :=
  (commitFileBuckets fileData).map (·.1)

/-- An identity as constructed for a contributor.  `GenerateIdentity` is
an external `lfx-event-schema` call whose id is, per the spec data model,
a deterministic function of (source, email, name, username); the id is
modelled as that tuple itself. -/
structure UserIdentity where
  source : GoStr
  email : GoStr
  name : GoStr
  username : GoStr
  deriving Repr, DecidableEq

/-- A contributor of the emitted commit; the float64 weight of the source
is modelled as an exact rational. -/
structure Contributor where
  role : GoStr
  weight : ℚ
  identity : UserIdentity
  deriving Repr, DecidableEq

/-- Does an ident type take the shared pair-programming weight
(`identType == "co_author" || identType == "author"`, source lines 1301
and 1314)? -/
def isAuthOrCo (t : GoStr) : Bool := t = gs "co_author" || t = gs "author"

/-- The contributor-building loop of `GetModelData` (source lines
1296-1337): with pair programming on, the weight `1/nCoAuthors` is shared
by every `author` and `co_author` entry whenever `nCoAuthors > 1`, where
`nCoAuthors` counts both roles together; all other entries weigh `1.0`.
Idents are (name, username, email) triples; the username is discarded and
the email is taken from the third slot, as in the source. -/
def commitRolesOf (pp : Bool) (source : GoStr) (idents : List (GoStr × GoStr × GoStr))
    (identTypes : List GoStr) : List Contributor :=
  let nCoAuthors := (identTypes.filter isAuthOrCo).length
  let ppCoAuthorWeight : ℚ := if pp ∧ 1 < nCoAuthors then 1 / nCoAuthors else 1
  (identTypes.zip idents).map (fun p =>
    { role := p.1
      weight := if pp ∧ isAuthOrCo p.1 then ppCoAuthorWeight else 1
      identity := { source := source, email := p.2.2.2, name := p.2.1, username := [] } })

/-- Modelled from the spec: the shared library's `DedupContributors`
(external `insights-datasource-shared`, absent from this repository)
realises the "union" of contributors of spec §4.3 by dropping later
occurrences of an (identity, role) pair already seen. -/
def dedupContribAux (seen : List (UserIdentity × GoStr)) :
    List Contributor → List Contributor
  | [] => []
  | c :: rest =>
    if (c.identity, c.role) ∈ seen then dedupContribAux seen rest
    else c :: dedupContribAux ((c.identity, c.role) :: seen) rest

/-- Modelled from the spec: entry point of the shared contributor dedup. -/
def DedupContributors (l : List Contributor) : List Contributor := dedupContribAux [] l

/-- `dedupAuthors` (source lines 1224-1242): contributors whose role is
`co_author` are dropped when their identity id also appears under an
`author` role; everything else is kept in order. -/
def dedupAuthors (inContributors : List Contributor) : List Contributor :=
  let authors := (inContributors.filter (fun c => c.role = gs "author")).map (·.identity)
  inContributors.filter (fun c => c.role ≠ gs "co_author" ∨ c.identity ∉ authors)

/-- `commit.Contributors` of `GetModelData` (source line 1339). -/
def getModelContributors (pp : Bool) (source : GoStr)
    (idents : List (GoStr × GoStr × GoStr)) (identTypes : List GoStr) : List Contributor :=
  dedupAuthors (DedupContributors (commitRolesOf pp source idents identTypes))

/-- Sum of the weights carried by `author`-role contributors. -/
def authorWeightSum (l : List Contributor) : ℚ :=
  ((l.filter (fun c => c.role = gs "author")).map (·.weight)).sum

/-- The commit payload fields the deduplicator consults (`git.Commit`
restricted to what `createHash`, `isHashCreated`, `isCommitCreated` and
the cache rows read). -/
structure MCommit where
  id : GoStr
  sha : GoStr
  repositoryURL : GoStr
  repositoryID : GoStr
  message : GoStr
  committedTimestamp : Int
  syncTimestamp : Int
  deriving Repr, DecidableEq

/-- `CommitHashFields` - elected fields from the commit schema to hash
(source struct). -/
structure CommitHashFields where
  id : GoStr
  sha : GoStr
  repositoryURL : GoStr
  repositoryID : GoStr
  message : GoStr
  deriving Repr, DecidableEq

/-- `createHash` builds the hash input from exactly the five elected
payload fields (source lines 4032-4047); the SHA-256-of-JSON digest
itself is an external crypto primitive, abstracted as `hashFn`. -/
def createHash (hashFn : CommitHashFields → GoStr) (c : MCommit) : GoStr :=
  hashFn { id := c.id, sha := c.sha, repositoryURL := c.repositoryURL,
           repositoryID := c.repositoryID, message := c.message }

/-- `CommitCache` - one cache row (source struct). -/
structure CommitCache where
  timestamp : GoStr
  entityID : GoStr
  sourceEntityID : GoStr
  fileLocation : GoStr
  hash : GoStr
  orphaned : Bool
  fromDL : Bool
  content : GoStr
  commitDate : Int
  deriving Repr, DecidableEq

/-- The package-level cache state: `cachedCommits` (a Go map) and the
`createdCommits` key set. -/
structure CacheState where
  cachedCommits : List (GoStr × CommitCache)
  createdCommits : List GoStr
  deriving Repr, DecidableEq

/-- `isHashCreated` (source lines 3643-3651): on a hit the matching entry
has its orphaned flag cleared in place. -/
def isHashCreated (st : CacheState) (hash : GoStr) : Bool × CacheState :=
  match lookupKey st.cachedCommits hash with
  | some c =>
    (true,
     { st with cachedCommits := mapInsert st.cachedCommits hash { c with orphaned := false } })
  | none => (false, st)

/-- `isCommitCreated` (source lines 3862-3865): key test on
`cachedCommits`. -/
def isCommitCreated (st : CacheState) (id : GoStr) : Bool :=
  (lookupKey st.cachedCommits id).isSome

/-- Decimal rendering used for the cache timestamp column. -/
def intToGoStr (n : Int) : GoStr := (toString n).data

/-- The cache row built for an event inside the `GitEnrichItems` loop
(source lines 1834-1846 and 1858-1866, with `IsHotRep = false` so the
serialized content is retained; `serialize` abstracts the external
base64-of-JSON payload encoding). -/
def mkCommitCache (serialize : MCommit → GoStr) (d : MCommit) (contentHash : GoStr) :
    CommitCache :=
  { timestamp := intToGoStr d.syncTimestamp
    entityID := d.id
    sourceEntityID := d.sha
    fileLocation := []
    hash := contentHash
    orphaned := false
    fromDL := false
    content := serialize d
    commitDate := d.committedTimestamp }

/-- Result of the per-pack dedup loop of `GitEnrichItems`. -/
structure PackResult where
  state : CacheState
  created : List MCommit
  updated : List MCommit
  commits : List CommitCache
  updateCommits : List CommitCache
  deriving Repr

/-- One iteration of the dedup loop of `GitEnrichItems` (source lines
1818-1873): the event's content hash is probed with `isHashCreated`
(clearing the orphaned flag on a hit) and its entity id with
`isCommitCreated`; only a miss on both emits `commit.created`, a hit on
the id alone emits `commit.updated`, and a hash hit is skipped
entirely. -/
def packStep (hashFn : CommitHashFields → GoStr) (serialize : MCommit → GoStr)
    (res : PackResult) (d : MCommit) : PackResult :=
  let contentHash := createHash hashFn d
  let ihc := isHashCreated res.state contentHash
  let hashExist := ihc.1
  let st1 := ihc.2
  let isCreated := isCommitCreated st1 d.id
  if ¬hashExist ∧ ¬isCreated then
    { state := { st1 with createdCommits := d.id :: st1.createdCommits }
      created := res.created ++ [d]
      updated := res.updated
      commits := res.commits ++ [mkCommitCache serialize d contentHash]
      updateCommits := res.updateCommits }
  else if isCreated ∧ ¬hashExist then
    { state := st1
      created := res.created
      updated := res.updated ++ [d]
      commits := res.commits
      updateCommits := res.updateCommits ++ [mkCommitCache serialize d contentHash] }
  else { res with state := st1 }

/-- The dedup loop of `GitEnrichItems` over one pack of events. -/
def processPackLoop (hashFn : CommitHashFields → GoStr) (serialize : MCommit → GoStr)
    (st0 : CacheState) (pack : List MCommit) : PackResult :=
  pack.foldl (packStep hashFn serialize)
    { state := st0, created := [], updated := [], commits := [], updateCommits := [] }

/-- `createCacheFile` map mutation (source lines 3399-3402): each new row
is stamped with the publish path and stored in `cachedCommits` keyed by
its entity id.  (The CSV dump the source also performs is modelled by
`persistRows` at end of run; every dump writes the full map, so key
presence is identical.) -/
def createCacheFile (st : CacheState) (cache : List CommitCache) (path : GoStr) :
    CacheState :=
  { st with
    cachedCommits :=
      cache.foldl (fun m comm => mapInsert m comm.entityID { comm with fileLocation := path })
        st.cachedCommits }

/-- One pack of `GitEnrichItems` end to end (source lines 1806-1939,
`IsHotRep = false`): the dedup loop, then `createCacheFile` for the
created rows and for the updated rows, each only when nonempty, with the
publisher-returned storage paths `path`/`pathU`. -/
def processPack (hashFn : CommitHashFields → GoStr) (serialize : MCommit → GoStr)
    (st0 : CacheState) (pack : List MCommit) (path pathU : GoStr) :
    CacheState × List MCommit × List MCommit :=
  let r := processPackLoop hashFn serialize st0 pack
  let st1 := if r.created ≠ [] then createCacheFile r.state r.commits path else r.state
  let st2 := if r.updated ≠ [] then createCacheFile st1 r.updateCommits pathU else st1
  (st2, r.created, r.updated)

/-- A whole run's pack sequence; returns the final state and every commit
emitted as `commit.created`. -/
def runPacks (hashFn : CommitHashFields → GoStr) (serialize : MCommit → GoStr) :
    CacheState → List (List MCommit × GoStr × GoStr) → CacheState × List MCommit
  | st, [] => (st, [])
  | st, (pack, path, pathU) :: rest =>
    let r := processPack hashFn serialize st pack path pathU
    let rr := runPacks hashFn serialize r.1 rest
    (rr.1, r.2.1 ++ rr.2)

/-- The rows persisted at end of run: `createCacheFile` dumps every value
of `cachedCommits` into the CSV. -/
def persistRows (st : CacheState) : List CommitCache := st.cachedCommits.map (·.2)

/-- One row of `getCache` (source lines 3663-3702): the row is loaded
into `cachedCommits` keyed by its hash column, with the orphaned flag
forced to true when `LAST_SYNC` is set, and its entity id recorded in
`createdCommits`. -/
def getCacheStep (lastSyncSet : Bool) (st : CacheState) (record : CommitCache) :
    CacheState :=
  { cachedCommits :=
      mapInsert st.cachedCommits record.hash
        { record with orphaned := if lastSyncSet then true else record.orphaned }
    createdCommits := record.entityID :: st.createdCommits }

/-- `getCache` (source lines 3653-3703): load every persisted row. -/
def getCache (rows : List CommitCache) (lastSyncSet : Bool) : CacheState :=
  rows.foldl (getCacheStep lastSyncSet) { cachedCommits := [], createdCommits := [] }

/-- A sequence of runs over a persisted cache: each run loads the rows,
processes its packs and persists the final map; returns the final rows
and the concatenation of every `commit.created` emission of every run. -/
def runsModel (hashFn : CommitHashFields → GoStr) (serialize : MCommit → GoStr) :
    List CommitCache → List (Bool × List (List MCommit × GoStr × GoStr)) →
    List CommitCache × List MCommit
  | rows, [] => (rows, [])
  | rows, (lastSyncSet, packs) :: rest =>
    let st := getCache rows lastSyncSet
    let r := runPacks hashFn serialize st packs
    let rr := runsModel hashFn serialize (persistRows r.1) rest
    (rr.1, r.2 ++ rr.2)

/-! The hot-repository branch (`commitsCount >= HotRepoCount = 50000`,
source lines 3174-3181): instead of the single `commits-cache.csv`, the
cache is sharded into half-year files and only the shard matching the
resume date is loaded, so the dedup probes see one shard at a time. -/

/-- `YearFirstHalf` (source line 109). -/
def YearFirstHalf : GoStr := gs "first-half"

/-- `YearSecondHalf` (source line 110). -/
def YearSecondHalf : GoStr := gs "second-half"

/-- `CommitsByYearHalfCacheFile` (source line 539): the shard file name
`commits-cache-%s-%s.csv` formatted with the year and the half. -/
def CommitsByYearHalfCacheFile (year : Int) (half : GoStr) : GoStr :=
  gs "commits-cache-" ++ intToGoStr year ++ gs "-" ++ half ++ gs ".csv"

/-- `getYearHalfCache` (source lines 3757-3808): fetches the single
shard file named by the current year and half from the cache provider
(`store` maps file names to their parsed rows); a missing file returns
with the map untouched; otherwise each row is loaded exactly as in
`getCache` - keyed by its hash column, orphaned forced when `LAST_SYNC`
is set, entity id recorded. -/
def getYearHalfCache (store : List (GoStr × List CommitCache)) (year : Int)
    (half : GoStr) (lastSyncSet : Bool) (st : CacheState) : CacheState :=
  match lookupKey store (CommitsByYearHalfCacheFile year half) with
  | none => st
  | some rows => rows.foldl (getCacheStep lastSyncSet) st

/-- The hot-repository run start (source lines 3174-3181):
`CurrentCacheYear` is the resume date's year, the half is second when
the resume month exceeds 6, and only that one shard is loaded.
(`getUpdateCache` also runs but fills the separate
`CachedCommitsUpdates` map, which neither `isHashCreated` nor
`isCommitCreated` consults.) -/
def hotRunInit (store : List (GoStr × List CommitCache)) (fromYear : Int)
    (fromMonthGt6 : Bool) (lastSyncSet : Bool) : CacheState :=
  getYearHalfCache store fromYear
    (if fromMonthGt6 then YearSecondHalf else YearFirstHalf) lastSyncSet
    { cachedCommits := [], createdCommits := [] }

/-- The cache row built in the hot-repository branch: as
`mkCommitCache` but with the serialized content dropped
(`comm.Content = ""`, source lines 1842-1844). -/
def mkCommitCacheHot (d : MCommit) (contentHash : GoStr) : CommitCache :=
  { timestamp := intToGoStr d.syncTimestamp
    entityID := d.id
    sourceEntityID := d.sha
    fileLocation := []
    hash := contentHash
    orphaned := false
    fromDL := false
    content := []
    commitDate := d.committedTimestamp }

/-- One iteration of the `GitEnrichItems` dedup loop with
`IsHotRep = true` (source lines 1818-1873): the probes and the emission
policy are those of `packStep`; only the cache rows differ. -/
def packStepHot (hashFn : CommitHashFields → GoStr) (res : PackResult) (d : MCommit) :
    PackResult :=
  let contentHash := createHash hashFn d
  let ihc := isHashCreated res.state contentHash
  let hashExist := ihc.1
  let st1 := ihc.2
  let isCreated := isCommitCreated st1 d.id
  if ¬hashExist ∧ ¬isCreated then
    { state := { st1 with createdCommits := d.id :: st1.createdCommits }
      created := res.created ++ [d]
      updated := res.updated
      commits := res.commits ++ [mkCommitCacheHot d contentHash]
      updateCommits := res.updateCommits }
  else if isCreated ∧ ¬hashExist then
    { state := st1
      created := res.created
      updated := res.updated ++ [d]
      commits := res.commits
      updateCommits := res.updateCommits ++ [mkCommitCacheHot d contentHash] }
  else { res with state := st1 }

/-- The hot-repository dedup loop over one pack of events. -/
def processPackLoopHot (hashFn : CommitHashFields → GoStr) (st0 : CacheState)
    (pack : List MCommit) : PackResult :=
  pack.foldl (packStepHot hashFn)
    { state := st0, created := [], updated := [], commits := [], updateCommits := [] }

/-! Concrete instances used to evaluate the dedup pipeline. -/

def c2hashFn : CommitHashFields → GoStr := fun f => f.sha

def c2serialize : MCommit → GoStr := fun d => d.message

def c2row : CommitCache :=
  { timestamp := []
    entityID := gs "e0"
    sourceEntityID := []
    fileLocation := []
    hash := gs "h"
    orphaned := true
    fromDL := false
    content := []
    commitDate := 0 }

def c2commit : MCommit :=
  { id := gs "id1"
    sha := gs "h"
    repositoryURL := []
    repositoryID := []
    message := []
    committedTimestamp := 0
    syncTimestamp := 0 }

def c2runs : List (Bool × List (List MCommit × GoStr × GoStr)) :=
  [(true, [([c2commit], gs "p", gs "q")])]

/-- A persisted hot-repository cache: the one row with hash `h` sits in
the 2024 first-half shard. -/
def hotStore : List (GoStr × List CommitCache) :=
  [(CommitsByYearHalfCacheFile 2024 YearFirstHalf, [c2row])]

/-! Shared lemmas about the Go-map model. -/

theorem lookupKey_mapInsert_self {β : Type} (m : List (GoStr × β)) (k : GoStr) (v : β) :
    lookupKey (mapInsert m k v) k = some v := by
  induction m with
  | nil => simp [mapInsert, lookupKey]
  | cons hd tl ih =>
    obtain ⟨k', w⟩ := hd
    by_cases h : k' = k
    · simp [mapInsert, h, lookupKey]
    · simp [mapInsert, h, lookupKey, ih]

theorem lookupKey_mapInsert_ne {β : Type} (m : List (GoStr × β)) (k k' : GoStr) (v : β)
    (h : k' ≠ k) : lookupKey (mapInsert m k v) k' = lookupKey m k' := by
  induction m with
  | nil =>
    simp only [mapInsert, lookupKey]
    rw [if_neg (fun hh => h hh.symm)]
  | cons hd tl ih =>
    obtain ⟨k0, w⟩ := hd
    by_cases h0 : k0 = k
    · subst h0
      simp only [mapInsert, if_pos rfl, lookupKey]
      rw [if_neg (fun hh => h hh.symm), if_neg (fun hh => h hh.symm)]
    · simp only [mapInsert, if_neg h0, lookupKey]
      by_cases h1 : k0 = k'
      · rw [if_pos h1, if_pos h1]
      · rw [if_neg h1, if_neg h1, ih]

theorem length_mapInsert_le {β : Type} (m : List (GoStr × β)) (k : GoStr) (v : β) :
    (mapInsert m k v).length ≤ m.length + 1 := by
  induction m with
  | nil => simp [mapInsert]
  | cons hd tl ih =>
    obtain ⟨k0, w⟩ := hd
    by_cases h0 : k0 = k
    · simp [mapInsert, h0]
    · simp only [mapInsert, h0, if_false, List.length_cons]
      omega

theorem mem_keys_mapInsert {β : Type} (m : List (GoStr × β)) (k t : GoStr) (v : β) :
    t ∈ (mapInsert m k v).map Prod.fst ↔ t = k ∨ t ∈ m.map Prod.fst := by
  induction m with
  | nil =>
    simp only [mapInsert, List.map_cons, List.map_nil, List.mem_singleton,
      List.not_mem_nil, or_false]
  | cons hd tl ih =>
    obtain ⟨k0, w⟩ := hd
    by_cases h0 : k0 = k
    · subst h0
      show t ∈ List.map Prod.fst (if k0 = k0 then (k0, v) :: tl else _) ↔ _
      rw [if_pos rfl]
      simp only [List.map_cons, List.mem_cons]
      tauto
    · simp only [mapInsert, if_neg h0, List.map_cons, List.mem_cons, ih]
      tauto

/-! Claim C6: message truncation. -/

/-- C6: the message carried in the transported payload (the `message`
component, which `GetModelData` copies into the payload) has length at
most `GitMaxMsgLength = 16384`: a longer message is truncated to its first
16384 characters there, while `message_analyzed` retains the full message
unchanged. -/
theorem EnrichItem_message_truncation (msg : GoStr) :
    (∀ p, (enrichMessage (some msg)).2.2 = some p → p.length ≤ GitMaxMsgLength) ∧
    (enrichMessage (some msg)).2.1 = some msg ∧
    (GitMaxMsgLength < msg.length →
      (enrichMessage (some msg)).2.2 = some (msg.take GitMaxMsgLength)) ∧
    (msg.length ≤ GitMaxMsgLength → (enrichMessage (some msg)).2.2 = some msg) := by
  refine ⟨?_, rfl, ?_, ?_⟩
  · intro p hp
    simp only [enrichMessage] at hp
    by_cases h : GitMaxMsgLength < msg.length
    · rw [if_pos h] at hp
      cases hp
      simp [List.length_take]
    · rw [if_neg h] at hp
      cases hp
      omega
  · intro h
    simp only [enrichMessage]
    rw [if_pos h]
  · intro h
    have hlt : ¬ GitMaxMsgLength < msg.length := by omega
    simp only [enrichMessage]
    rw [if_neg hlt]

/-- Witness for C6 at a concrete 20000-character message. -/
theorem EnrichItem_message_truncation_witness :
    GitMaxMsgLength < (List.replicate 20000 'a').length ∧
    (enrichMessage (some (List.replicate 20000 'a'))).2.2 =
      some ((List.replicate 20000 'a').take GitMaxMsgLength) :=
  by
  have hlt : GitMaxMsgLength < (List.replicate 20000 'a').length := by
    simp only [GitMaxMsgLength, List.length_replicate]
    norm_num
  exact ⟨hlt, (EnrichItem_message_truncation (List.replicate 20000 'a')).2.2.1 hlt⟩

/-! Claim C5: merge_commit iff no file entries. -/

theorem enrichFileData_eq_nil_iff (files : List FileEntry)
    (h : ∀ f ∈ files, f.action.isSome) : enrichFileData files = [] ↔ files = [] := by
  induction files with
  | nil => simp [enrichFileData]
  | cons hd tl _ =>
    have hhd : hd.action.isSome := h hd (by simp)
    obtain ⟨act, hact⟩ := Option.isSome_iff_exists.mp hhd
    simp [enrichFileData, hact]

/-- C5: the `merge_commit` flag of the emitted event is true exactly when
the commit has no file entries (its `file_data`, which per the parser's
data model all carry an action, is empty). -/
theorem EnrichItem_merge_commit_iff (files : List FileEntry)
    (h : ∀ f ∈ files, f.action.isSome) :
    (mergeCommit (enrichFileData files) = true ↔ files = []) ∧
    (mergeCommit (enrichFileData files) = true ↔ enrichFileData files = []) ∧
    enrichNFiles files = (enrichFileData files).length := by
  have hlen : mergeCommit (enrichFileData files) = true ↔ enrichFileData files = [] := by
    simp [mergeCommit, List.length_eq_zero]
  refine ⟨hlen.trans (enrichFileData_eq_nil_iff files h), hlen, ?_⟩
  clear h hlen
  induction files with
  | nil => rfl
  | cons hd tl ih =>
    cases hact : hd.action with
    | none =>
      simp only [enrichFileData, enrichNFiles, List.filterMap_cons, List.filter_cons,
        hact, Option.isSome_none, Bool.false_eq_true, if_false] at ih ⊢
      exact ih
    | some a =>
      simp only [enrichFileData, enrichNFiles, List.filterMap_cons, List.filter_cons,
        hact, Option.isSome_some, if_true, List.length_cons] at ih ⊢
      omega

/-- Witness for C5 at a one-file commit and at an empty commit. -/
theorem EnrichItem_merge_commit_iff_witness :
    ((∀ f ∈ [({ action := some (gs "M"), file := some (gs "a.go") } : FileEntry)],
        f.action.isSome) ∧
      (mergeCommit (enrichFileData
          [({ action := some (gs "M"), file := some (gs "a.go") } : FileEntry)]) = true ↔
        [({ action := some (gs "M"), file := some (gs "a.go") } : FileEntry)] = [])) ∧
    (mergeCommit (enrichFileData ([] : List FileEntry)) = true ↔ ([] : List FileEntry) = []) :=
  ⟨⟨by decide, (EnrichItem_merge_commit_iff _ (by decide)).1⟩,
    (EnrichItem_merge_commit_iff [] (by simp)).1⟩

/-! Claim C10: binary-file dashes parse as zero. -/

theorem statsMatch_head (line : GoStr) (x : GoStr × GoStr × GoStr)
    (h : statsMatch line = some x) :
    ∃ c rest, line = c :: rest ∧ (c.isDigit = true ∨ c = '-') := by
  cases line with
  | nil => simp [statsMatch, matchNumOrDash] at h
  | cons c rest =>
    refine ⟨c, rest, rfl, ?_⟩
    by_cases hd : c.isDigit
    · exact Or.inl hd
    · right
      simp only [statsMatch, matchNumOrDash, List.takeWhile_cons, hd] at h
      by_cases hc : c = '-'
      · exact hc
      · exfalso
        revert h
        cases hcc : c
        simp_all [statsMatch, matchNumOrDash]

theorem actionMatch_none_of_head (c : Char) (rest : GoStr) (h : ¬ c = ':') :
    actionMatch (c :: rest) = none := by
  simp [actionMatch, List.takeWhile_cons, h]

/-- C10: a numstat line whose added or removed field is `-` (as git prints
for binary files) stores the count 0 for that field rather than an absent
value, such an entry contributes exactly zero to the commit's lines_added
and lines_removed totals, and the file-state parser reports any line
matching the stats pattern as parsed. -/
theorem ParseStats_dash_zero :
    goAtoi (gs "-") = 0 ∧
    (∀ cf dFile, lookupKey cf (ExtractPrevFileName dFile) = none →
      lookupKey (ParseStats cf (gs "-") (gs "-") dFile) (ExtractPrevFileName dFile) =
        some { file := some (ExtractPrevFileName dFile), added := some 0, removed := some 0 }) ∧
    (∀ e : FileEntry, e.added = some 0 → e.removed = some 0 → e.action.isSome →
      enrichLinesAdded [e] = 0 ∧ enrichLinesRemoved [e] = 0) ∧
    (∀ cf line, (statsMatch line).isSome → (ParseFile cf line).2.2.1 = true) := by
  refine ⟨rfl, ?_, ?_, ?_⟩
  · intro cf dFile hnone
    simp only [ParseStats, hnone]
    have : goAtoi (gs "-") = 0 := rfl
    rw [this]
    simpa using lookupKey_mapInsert_self cf (ExtractPrevFileName dFile)
      { file := some (ExtractPrevFileName dFile), added := some 0, removed := some 0 }
  · intro e ha hr hact
    obtain ⟨a, haa⟩ := Option.isSome_iff_exists.mp hact
    refine ⟨?_, ?_⟩
    · simp [enrichLinesAdded, enrichFileData, haa, ha]
    · simp [enrichLinesRemoved, enrichFileData, haa, hr]
  · intro cf line hsome
    obtain ⟨x, hx⟩ := Option.isSome_iff_exists.mp hsome
    obtain ⟨c, rest, hline, hc⟩ := statsMatch_head line x hx
    subst hline
    have hcolon : ¬ c = ':' := by
      rcases hc with hd | hd
      · intro hcc
        rw [hcc] at hd
        simp [Char.isDigit] at hd
      · intro hcc
        rw [hcc] at hd
        exact absurd hd (by decide)
    obtain ⟨a, r, f⟩ := x
    simp [ParseFile, actionMatch_none_of_head c rest hcolon, hx]

/-- Witness for C10 at the concrete binary-file line `-  -  bin.png`. -/
theorem ParseStats_dash_zero_witness :
    (lookupKey ([] : List (GoStr × FileEntry)) (ExtractPrevFileName (gs "bin.png")) = none ∧
      lookupKey (ParseStats [] (gs "-") (gs "-") (gs "bin.png"))
          (ExtractPrevFileName (gs "bin.png")) =
        some { file := some (ExtractPrevFileName (gs "bin.png")),
               added := some 0, removed := some 0 }) ∧
    ((statsMatch (gs "-\t-\tbin.png")).isSome ∧
      (ParseFile [] (gs "-\t-\tbin.png")).2.2.1 = true) :=
  ⟨⟨by decide, ParseStats_dash_zero.2.1 [] (gs "bin.png") (by decide)⟩,
   ⟨by decide, ParseStats_dash_zero.2.2.2 [] (gs "-\t-\tbin.png") (by decide)⟩⟩

/-! Claim C9: header property cap. -/

theorem headerMatch_shape (line : GoStr) (nv : GoStr × GoStr)
    (h : headerMatch line = some nv) : line ≠ [] ∧ nv.1 ≠ [] := by
  constructor
  · rintro rfl
    simp [headerMatch] at h
  · simp only [headerMatch] at h
    by_cases hn : line.takeWhile isHeaderNameChar = []
    · simp [hn] at h
    · rw [if_neg hn] at h
      revert h
      cases line.dropWhile isHeaderNameChar with
      | nil => intro h; exact absurd h (by simp)
      | cons c rest =>
        intro h
        by_cases hcc : c = ':'
        · subst hcc
          simp only [Option.map_eq_some'] at h
          obtain ⟨v, _, hv⟩ := h
          rw [← hv]
          exact hn
        · exact absurd h (by simp [hcc])

theorem ParseHeader_step_le (m : List (GoStr × CommitVal)) (line : GoStr)
    (h : m.length ≤ GitMaxCommitProperties) :
    ((ParseHeader m line).1).length ≤ GitMaxCommitProperties := by
  by_cases hline : line = []
  · simpa [ParseHeader, hline] using h
  · simp only [ParseHeader, if_neg hline]
    cases hm : headerMatch line with
    | none => simpa using h
    | some nv =>
      obtain ⟨name, value⟩ := nv
      simp only
      by_cases hlen : m.length < GitMaxCommitProperties
      · rw [if_pos hlen]
        by_cases hname : name ≠ []
        · rw [if_pos hname]
          have := length_mapInsert_le m name (CommitVal.str value)
          simp only
          omega
        · rw [if_neg hname]
          simpa using h
      · rw [if_neg hlen]
        simpa using h

/-- C9: at most `GitMaxCommitProperties = 1000` properties are ever stored
on the commit map while parsing headers; a header line arriving at the cap
is dropped silently (the map is unchanged), yet the parser still reports
the line as parsed and raises no error, as it does for every header-
pattern line. -/
theorem ParseHeader_cap (commit0 : List (GoStr × CommitVal)) (lines : List GoStr)
    (h0 : commit0.length ≤ GitMaxCommitProperties) :
    (parseHeaderLines commit0 lines).length ≤ GitMaxCommitProperties ∧
    (∀ (commit : List (GoStr × CommitVal)) line,
      GitMaxCommitProperties ≤ commit.length → (headerMatch line).isSome →
      ParseHeader commit line = (commit, 2, true, false)) ∧
    (∀ (commit : List (GoStr × CommitVal)) line, (headerMatch line).isSome →
      (ParseHeader commit line).2.2.1 = true ∧ (ParseHeader commit line).2.2.2 = false) := by
  refine ⟨?_, ?_, ?_⟩
  · induction lines generalizing commit0 with
    | nil => simpa [parseHeaderLines] using h0
    | cons hd tl ih =>
      have hstep := ParseHeader_step_le commit0 hd h0
      simpa [parseHeaderLines, List.foldl_cons] using ih _ hstep
  · intro commit line hge hsome
    obtain ⟨nv, hnv⟩ := Option.isSome_iff_exists.mp hsome
    obtain ⟨hne, _⟩ := headerMatch_shape line nv hnv
    obtain ⟨name, value⟩ := nv
    have hnlt : ¬ commit.length < GitMaxCommitProperties := by omega
    simp [ParseHeader, if_neg hne, hnv, hnlt]
  · intro commit line hsome
    obtain ⟨nv, hnv⟩ := Option.isSome_iff_exists.mp hsome
    obtain ⟨hne, _⟩ := headerMatch_shape line nv hnv
    obtain ⟨name, value⟩ := nv
    by_cases hlen : commit.length < GitMaxCommitProperties
    · by_cases hname : name ≠ []
      · simp [ParseHeader, if_neg hne, hnv, hlen, hname]
      · simp [ParseHeader, if_neg hne, hnv, hlen, hname]
    · simp [ParseHeader, if_neg hne, hnv, hlen]

/-- Witness for C9: a full map drops the header silently and stays at the
cap. -/
theorem ParseHeader_cap_witness :
    ((List.replicate 1000 ((gs "k"), CommitVal.str (gs "v"))).length ≤ GitMaxCommitProperties ∧
      (parseHeaderLines (List.replicate 1000 ((gs "k"), CommitVal.str (gs "v")))
          [gs "Author: x"]).length ≤ GitMaxCommitProperties) ∧
    (GitMaxCommitProperties ≤ (List.replicate 1000 ((gs "k"), CommitVal.str (gs "v"))).length ∧
      (headerMatch (gs "Author: x")).isSome ∧
      ParseHeader (List.replicate 1000 ((gs "k"), CommitVal.str (gs "v"))) (gs "Author: x") =
        (List.replicate 1000 ((gs "k"), CommitVal.str (gs "v")), 2, true, false)) := by
  have hlen : (List.replicate 1000 ((gs "k"), CommitVal.str (gs "v"))).length = 1000 :=
    List.length_replicate _ _
  have h0 : (List.replicate 1000 ((gs "k"), CommitVal.str (gs "v"))).length ≤
      GitMaxCommitProperties := by
    rw [hlen]
    norm_num [GitMaxCommitProperties]
  have hge : GitMaxCommitProperties ≤
      (List.replicate 1000 ((gs "k"), CommitVal.str (gs "v"))).length := by
    rw [hlen]
    norm_num [GitMaxCommitProperties]
  have hm : (headerMatch (gs "Author: x")).isSome := by decide
  exact ⟨⟨h0, (ParseHeader_cap _ [gs "Author: x"] h0).1⟩,
    ⟨hge, hm, (ParseHeader_cap _ [] h0).2.1 _ _ hge hm⟩⟩

/-! Claim C4: extension buckets.  Lemmas about single-character splitting
first. -/

theorem splitChar_ne_nil (c : Char) (s : GoStr) : splitChar c s ≠ [] := by
  cases s with
  | nil => simp [splitChar]
  | cons x rest =>
    simp only [splitChar]
    cases splitChar c rest with
    | nil => simp
    | cons h t =>
      by_cases hx : x = c
      · simp [hx]
      · simp [hx]

theorem goSplitF_eq_splitChar (c : Char) :
    ∀ (fuel : Nat) (s : GoStr), s.length < fuel → goSplitF fuel s [c] = splitChar c s := by
  intro fuel
  induction fuel with
  | zero => intro s h; omega
  | succ n ih =>
    intro s h
    cases s with
    | nil => rfl
    | cons x rest =>
      have hrest : rest.length < n := by
        simp only [List.length_cons] at h
        omega
      by_cases hx : x = c
      · have hpre : ([c].isPrefixOf (x :: rest) ∧ [c] ≠ []) := by
          subst hx
          exact ⟨by simp [List.isPrefixOf], by simp⟩
        simp only [goSplitF, splitChar]
        rw [if_pos ⟨hpre.2, hpre.1⟩]
        have hdrop : (x :: rest).drop [c].length = rest := by simp
        rw [hdrop, ih rest hrest]
        cases hs : splitChar c rest with
        | nil => exact absurd hs (splitChar_ne_nil c rest)
        | cons h t =>
          dsimp only
          rw [if_pos hx]
      · have hpre : ¬ ([c] ≠ [] ∧ [c].isPrefixOf (x :: rest)) := by
          rintro ⟨-, hp⟩
          simp [List.isPrefixOf] at hp
          exact hx hp.symm
        simp only [goSplitF, splitChar]
        rw [if_neg hpre, ih rest hrest]
        cases hs : splitChar c rest with
        | nil => rfl
        | cons h t =>
          dsimp only
          rw [if_neg hx]

theorem goSplit_singleton (c : Char) (s : GoStr) : goSplit s [c] = splitChar c s :=
  goSplitF_eq_splitChar c (s.length + 1) s (by omega)

theorem not_mem_of_mem_splitChar (c : Char) (s : GoStr) :
    ∀ p ∈ splitChar c s, c ∉ p := by
  induction s with
  | nil =>
    intro p hp
    simp only [splitChar, List.mem_singleton] at hp
    subst hp
    simp
  | cons x rest ih =>
    intro p hp
    simp only [splitChar] at hp
    cases hs : splitChar c rest with
    | nil => exact absurd hs (splitChar_ne_nil c rest)
    | cons hh t =>
      rw [hs] at hp
      dsimp only at hp
      by_cases hx : x = c
      · rw [if_pos hx] at hp
        rcases List.mem_cons.mp hp with h1 | h1
        · subst h1; simp
        · exact ih p (hs ▸ h1)
      · rw [if_neg hx] at hp
        rcases List.mem_cons.mp hp with h1 | h1
        · subst h1
          intro hmem
          rcases List.mem_cons.mp hmem with h2 | h2
          · exact hx h2.symm
          · exact ih hh (by rw [hs]; exact List.mem_cons_self _ _) h2
        · exact ih p (by rw [hs]; exact List.mem_cons_of_mem _ h1)

theorem splitChar_of_not_mem (c : Char) (s : GoStr) (h : c ∉ s) : splitChar c s = [s] := by
  induction s with
  | nil => rfl
  | cons x rest ih =>
    have hx : ¬ x = c := fun hh => h (by rw [hh]; exact List.mem_cons_self _ _)
    have hrest : c ∉ rest := fun hh => h (List.mem_cons_of_mem _ hh)
    simp only [splitChar, ih hrest]
    rw [if_neg hx]

theorem length_splitChar (c : Char) (s : GoStr) :
    (splitChar c s).length = s.count c + 1 := by
  induction s with
  | nil => simp [splitChar]
  | cons x rest ih =>
    simp only [splitChar]
    cases hs : splitChar c rest with
    | nil => exact absurd hs (splitChar_ne_nil c rest)
    | cons h t =>
      rw [hs] at ih
      dsimp only
      by_cases hx : x = c
      · subst hx
        rw [if_pos rfl]
        simp only [List.length_cons, List.count_cons_self] at ih ⊢
        omega
      · rw [if_neg hx]
        simp only [List.length_cons] at ih ⊢
        rw [List.count_cons_of_ne (fun hh => hx hh.symm)]
        omega

theorem getLastQ_cons_ne_nil (a : Char) (l : GoStr) (h : l ≠ []) :
    (a :: l).getLast? = l.getLast? := by
  cases l with
  | nil => exact absurd rfl h
  | cons b t => exact List.getLast?_cons_cons

theorem getLastD_splitChar_eq_nil_iff (c : Char) (s : GoStr) :
    (splitChar c s).getLastD [] = [] ↔ s = [] ∨ s.getLast? = some c := by
  induction s with
  | nil => simp [splitChar]
  | cons x rest ih =>
    simp only [splitChar]
    cases hs : splitChar c rest with
    | nil => exact absurd hs (splitChar_ne_nil c rest)
    | cons h t =>
      rw [hs] at ih
      dsimp only
      by_cases hx : x = c
      · subst hx
        rw [if_pos rfl]
        cases rest with
        | nil =>
          simp only [splitChar] at hs
          cases hs
          simp
        | cons y r =>
          have hlast : (x :: y :: r).getLast? = (y :: r).getLast? :=
            List.getLast?_cons_cons
          simp only [List.getLastD_cons, hlast]
          simp only [List.getLastD_cons] at ih
          rw [ih]
          simp
      · rw [if_neg hx]
        cases t with
        | nil =>
          have hcount : rest.count c = 0 := by
            have := length_splitChar c rest
            rw [hs] at this
            simp at this
            omega
          simp only [List.getLastD_cons, List.getLastD_nil]
          constructor
          · intro hh
            exact absurd hh (by simp)
          · rintro (hh | hh)
            · exact absurd hh (by simp)
            · exfalso
              cases rest with
              | nil =>
                simp only [List.getLast?_singleton, Option.some_inj] at hh
                exact hx hh
              | cons y r =>
                have hmem : c ∈ y :: r := List.mem_of_mem_getLast? hh
                exact (List.count_eq_zero.mp hcount) hmem
        | cons z t' =>
          have hrestne : rest ≠ [] := by
            intro hre
            subst hre
            simp only [splitChar] at hs
            cases hs
          simp only [List.getLastD_cons] at ih ⊢
          rw [ih]
          constructor
          · rintro (hh | hh)
            · exact absurd hh hrestne
            · right
              rw [getLastQ_cons_ne_nil x rest hrestne]
              exact hh
          · rintro (hh | hh)
            · exact absurd hh (by simp)
            · right
              rw [getLastQ_cons_ne_nil x rest hrestne] at hh
              exact hh

theorem getLastD_mem_of_ne_nil (l : List GoStr) (h : l ≠ []) : l.getLastD [] ∈ l := by
  have hg : l.getLast? = some (l.getLast h) := List.getLast?_eq_getLast_of_ne_nil h
  have hd : l.getLastD [] = l.getLast h := by
    rw [List.getLastD_eq_getLast?, hg]
    rfl
  rw [hd]
  exact List.getLast_mem h

theorem ParseFileExtension_eq (f : GoStr) :
    ParseFileExtension f =
      (if (splitChar '.' f).getLastD [] = [] then UnknownExtension
       else (splitChar '.' f).getLastD []) := by
  have hdot : gs "." = ['.'] := rfl
  simp only [ParseFileExtension, hdot, goSplit_singleton]
  cases hsp : splitChar '.' f with
  | nil => exact absurd hsp (splitChar_ne_nil '.' f)
  | cons h t =>
    have hne : (h :: t : List GoStr) ≠ [] := by simp
    have hg : (h :: t).getLast? = some ((h :: t).getLast hne) :=
      List.getLast?_eq_getLast_of_ne_nil hne
    have hd : (h :: t).getLastD [] = (h :: t).getLast hne := by
      rw [List.getLastD_eq_getLast?, hg]
      rfl
    rw [hg]
    dsimp only
    rw [hd]

theorem ParseFileExtension_no_dot (f : GoStr) (h : '.' ∉ f) (hne : f ≠ []) :
    ParseFileExtension f = f := by
  rw [ParseFileExtension_eq, splitChar_of_not_mem '.' f h]
  simp [hne]

theorem ParseFileExtension_idem (f : GoStr) :
    ParseFileExtension (ParseFileExtension f) = ParseFileExtension f := by
  rw [ParseFileExtension_eq f]
  by_cases h : (splitChar '.' f).getLastD [] = []
  · rw [if_pos h]
    decide
  · rw [if_neg h]
    have hmem : (splitChar '.' f).getLastD [] ∈ splitChar '.' f :=
      getLastD_mem_of_ne_nil _ (splitChar_ne_nil '.' f)
    exact ParseFileExtension_no_dot _ (not_mem_of_mem_splitChar '.' f _ hmem) h

theorem mem_commitFileTypes_aux (fds : List FileData) :
    ∀ (acc : List (GoStr × CommitFilesByType)) (t : GoStr),
      t ∈ (fds.foldl addFileToBuckets acc).map Prod.fst ↔
        t ∈ acc.map Prod.fst ∨
          ∃ fd, fd ∈ fds ∧ fd.name ≠ [] ∧ ParseFileExtension fd.name = t := by
  induction fds with
  | nil =>
    intro acc t
    simp
  | cons fd rest ih =>
    intro acc t
    simp only [List.foldl_cons]
    rw [ih]
    have hsplit : t ∈ (addFileToBuckets acc fd).map Prod.fst ↔
        t ∈ acc.map Prod.fst ∨ (fd.name ≠ [] ∧ ParseFileExtension fd.name = t) := by
      by_cases hname : fd.name = []
      · simp [addFileToBuckets, hname]
      · simp only [addFileToBuckets, if_neg hname]
        rw [mem_keys_mapInsert]
        constructor
        · rintro (rfl | h)
          · exact Or.inr ⟨hname, rfl⟩
          · exact Or.inl h
        · rintro (h | ⟨-, rfl⟩)
          · exact Or.inr h
          · exact Or.inl rfl
    rw [hsplit]
    constructor
    · rintro ((h | ⟨h1, h2⟩) | ⟨x, hx, hprop⟩)
      · exact Or.inl h
      · exact Or.inr ⟨fd, List.mem_cons_self _ _, h1, h2⟩
      · exact Or.inr ⟨x, List.mem_cons_of_mem _ hx, hprop⟩
    · rintro (h | ⟨x, hx, hprop⟩)
      · exact Or.inl (Or.inl h)
      · rcases List.mem_cons.mp hx with rfl | hx2
        · exact Or.inl (Or.inr hprop)
        · exact Or.inr ⟨x, hx2, hprop⟩

/-- C4 counterexample: a dotless file name is emitted as its own bucket
type, not as `"UNKNOWN"`: `ParseFileExtension "Makefile" = "Makefile"`. -/
theorem ParseFileExtension_no_dot_cex :
    containsSub (gs "Makefile") (gs ".") = false ∧
    ParseFileExtension (gs "Makefile") = gs "Makefile" ∧
    ParseFileExtension (gs "Makefile") ≠ UnknownExtension ∧
    commitFileTypes [{ action := gs "M", name := gs "Makefile", added := 1, removed := 0 }] =
      [gs "Makefile"] := by decide

/-- C4 (amended): the emitted extension-bucket type is the segment after
the last dot; it is `"UNKNOWN"` exactly when that segment is empty — that
is, when the file name is empty or ends in a dot — while a name without
any dot yields the whole name itself (not `"UNKNOWN"`); re-parsing an
emitted extension yields the same extension (the computation is
idempotent, so `"UNKNOWN"` is stable), and every emitted bucket type is
the parsed extension of one of the commit's nonempty file names. -/
theorem ParseFileExtension_amended (f : GoStr) :
    ParseFileExtension f =
      (if (splitChar '.' f).getLastD [] = [] then UnknownExtension
       else (splitChar '.' f).getLastD []) ∧
    ((splitChar '.' f).getLastD [] = [] ↔ f = [] ∨ f.getLast? = some '.') ∧
    ('.' ∉ f → f ≠ [] → ParseFileExtension f = f) ∧
    ParseFileExtension (ParseFileExtension f) = ParseFileExtension f ∧
    (∀ (fds : List FileData) (t : GoStr),
      t ∈ commitFileTypes fds ↔
        ∃ fd, fd ∈ fds ∧ fd.name ≠ [] ∧ ParseFileExtension fd.name = t) := by
  refine ⟨ParseFileExtension_eq f, getLastD_splitChar_eq_nil_iff '.' f,
    ParseFileExtension_no_dot f, ParseFileExtension_idem f, ?_⟩
  intro fds t
  have := mem_commitFileTypes_aux fds [] t
  simpa [commitFileTypes, commitFileBuckets] using this

/-- Witness for C4 at the dotless name `Makefile` (exercising the
hypotheses of the dotless conjunct). -/
theorem ParseFileExtension_amended_witness :
    ('.' ∉ gs "Makefile" ∧ gs "Makefile" ≠ []) ∧
    ParseFileExtension (gs "Makefile") = gs "Makefile" :=
  ⟨⟨by decide, by decide⟩,
    (ParseFileExtension_amended (gs "Makefile")).2.2.1 (by decide) (by decide)⟩

/-! Claim C7: commit URL derivation. -/

theorem replaceFirst_of_prefix (s pat rep : GoStr) (hp : pat.isPrefixOf s = true)
    (hne : pat ≠ []) : replaceFirst s pat rep = rep ++ s.drop pat.length := by
  cases s with
  | nil =>
    have hpp : pat <+: [] := List.isPrefixOf_iff_prefix.mp hp
    exact absurd (List.prefix_nil.mp hpp) hne
  | cons c rest =>
    simp only [replaceFirst]
    rw [if_pos hp]

/-- C7 counterexample: the origin `example.git.com/repo` matches none of
the spec's listed host patterns, yet the source's extra `git.` branch
yields `<origin>/commit/?id=<sha>` instead of the claimed
`<origin>/<sha>`. -/
theorem GetCommitURL_git_dot_cex :
    ((gs "git://").isPrefixOf (gs "example.git.com/repo") = false ∧
      (gs "http://git.").isPrefixOf (gs "example.git.com/repo") = false ∧
      (gs "https://git.").isPrefixOf (gs "example.git.com/repo") = false ∧
      containsSub (gs "example.git.com/repo") (gs "github.com") = false ∧
      containsSub (gs "example.git.com/repo") (gs "gitlab.com") = false ∧
      containsSub (gs "example.git.com/repo") (gs "bitbucket.org") = false ∧
      containsSub (gs "example.git.com/repo") (gs "gerrit") = false ∧
      containsSub (gs "example.git.com/repo") (gs "review") = false) ∧
    GetCommitURL (fun o _ => (o, gs "unknown")) (gs "example.git.com/repo") (gs "abc") =
      (gs "example.git.com/repo/commit/?id=abc", gs "unknown") ∧
    GetCommitURL (fun o _ => (o, gs "unknown")) (gs "example.git.com/repo") (gs "abc") ≠
      (gs "example.git.com/repo" ++ gs "/" ++ gs "abc", gs "unknown") := by decide

/-- C7 (amended): a `git://` origin gets `git://` replaced by `http://`
followed by `/commit/?id=<sha>` with type `git`; an origin matching none
of the listed host patterns gets `<origin>/<sha>` with type `unknown`
only when it also does not contain `git.` — an unlisted origin containing
`git.` gets `<origin>/commit/?id=<sha>` with type `unknown` instead. -/
theorem GetCommitURL_amended (gerritFn : GoStr → GoStr → GoStr × GoStr)
    (origin hash : GoStr) :
    ((gs "git://").isPrefixOf origin = true →
      GetCommitURL gerritFn origin hash =
        (gs "http://" ++ origin.drop 6 ++ gs "/commit/?id=" ++ hash, gs "git")) ∧
    ((gs "git://").isPrefixOf origin = false →
     (gs "http://git.").isPrefixOf origin = false →
     (gs "https://git.").isPrefixOf origin = false →
     containsSub origin (gs "github.com") = false →
     containsSub origin (gs "gitlab.com") = false →
     containsSub origin (gs "bitbucket.org") = false →
     containsSub origin (gs "gerrit") = false →
     containsSub origin (gs "review") = false →
     ((containsSub origin (gs "git.") = true →
        GetCommitURL gerritFn origin hash =
          (origin ++ gs "/commit/?id=" ++ hash, gs "unknown")) ∧
      (containsSub origin (gs "git.") = false →
        GetCommitURL gerritFn origin hash =
          (origin ++ gs "/" ++ hash, gs "unknown")))) := by
  constructor
  · intro h
    have hrep : replaceFirst origin (gs "git://") (gs "http://") =
        gs "http://" ++ origin.drop 6 :=
      replaceFirst_of_prefix origin (gs "git://") (gs "http://") h (by decide)
    simp [GetCommitURL, h, hrep]
  · intro h1 h2 h3 h4 h5 h6 h7 h8
    constructor
    · intro hg
      simp [GetCommitURL, h1, h2, h3, h4, h5, h6, h7, h8, hg]
    · intro hg
      simp [GetCommitURL, h1, h2, h3, h4, h5, h6, h7, h8, hg]

/-- Witness for C7 on a `git://` origin and on a pattern-free origin. -/
theorem GetCommitURL_amended_witness :
    ((gs "git://").isPrefixOf (gs "git://host/repo") = true ∧
      GetCommitURL (fun o _ => (o, gs "unknown")) (gs "git://host/repo") (gs "abc") =
        (gs "http://" ++ (gs "git://host/repo").drop 6 ++ gs "/commit/?id=" ++ gs "abc",
         gs "git")) ∧
    GetCommitURL (fun o _ => (o, gs "unknown")) (gs "ssh://code.example.org/repo") (gs "abc") =
      (gs "ssh://code.example.org/repo" ++ gs "/" ++ gs "abc", gs "unknown") :=
  ⟨⟨by decide, (GetCommitURL_amended _ _ _).1 (by decide)⟩,
   ((GetCommitURL_amended (fun o _ => (o, gs "unknown")) (gs "ssh://code.example.org/repo")
        (gs "abc")).2 (by decide) (by decide) (by decide) (by decide) (by decide) (by decide)
        (by decide) (by decide)).2 (by decide)⟩

/-! Claim C8: commit branch from refs. -/

/-- The stripped non-tag refs of a list, in order. -/
def strippedNonTagRefs (refs : List GoStr) : List GoStr :=
  (refs.filter (fun r => !(stripGCBRef r).1)).map (fun r => (stripGCBRef r).2)

/-- The stripped tag refs of a list, in order. -/
def strippedTagRefs (refs : List GoStr) : List GoStr :=
  (refs.filter (fun r => (stripGCBRef r).1)).map (fun r => (stripGCBRef r).2)

/-- `GetCommitBranch` as claim C8 words it (refinement definition from the
spec's words, not from the source): the last stripped non-tag ref naming a
branch different from the default branch wins (reading "a branch" as a
nonempty name); if there is none, the last tag; if there is no tag either,
the default branch. -/
def GetCommitBranchClaimed (defaultBranch : GoStr) (refs : List GoStr) : GoStr :=
  let bs := (strippedNonTagRefs refs).filter (fun r => r ≠ defaultBranch ∧ r ≠ [])
  match bs.getLast? with
  | some b => b
  | none =>
    match (strippedTagRefs refs).getLast? with
    | some t => t
    | none => defaultBranch

/-- C8 counterexample: on refs `["feature", "origin/"]` with default
branch `main`, the ref `origin/` strips to the empty string and overwrites
the `feature` candidate, so the source returns the default branch `main`
although `feature` is a non-default branch ref — under any reading of the
claim the result should not be `main`. -/
theorem GetCommitBranch_empty_strip_cex :
    GetCommitBranch (gs "main") [gs "feature", gs "origin/"] = gs "main" ∧
    GetCommitBranchClaimed (gs "main") [gs "feature", gs "origin/"] = gs "feature" ∧
    gs "feature" ≠ gs "main" ∧
    strippedNonTagRefs [gs "feature", gs "origin/"] = [gs "feature", []] := by decide

theorem gcb_foldl (defaultBranch : GoStr) (refs : List GoStr) :
    ∀ acc : GoStr × GoStr,
      refs.foldl (gcbStep defaultBranch) acc =
        ((strippedTagRefs refs).getLastD acc.1,
         ((strippedNonTagRefs refs).filter (fun r => r ≠ defaultBranch)).getLastD acc.2) := by
  induction refs with
  | nil =>
    intro acc
    simp [strippedTagRefs, strippedNonTagRefs]
  | cons r rest ih =>
    intro acc
    rw [List.foldl_cons, ih]
    cases htag : (stripGCBRef r).1 with
    | true =>
      simp only [strippedTagRefs, strippedNonTagRefs, List.filter_cons, htag, Bool.not_true,
        if_true, Bool.false_eq_true, if_false, List.map_cons, List.getLastD_cons, gcbStep]
    | false =>
      by_cases hd : (stripGCBRef r).2 = defaultBranch
      · simp only [strippedTagRefs, strippedNonTagRefs, List.filter_cons, htag, Bool.not_false,
          Bool.false_eq_true, if_false, if_true, List.map_cons, List.getLastD_cons, gcbStep,
          hd, decide_eq_true_eq, decide_not, ne_eq, not_true_eq_false, Bool.not_true,
          decide_True, decide_False]
      · simp only [strippedTagRefs, strippedNonTagRefs, List.filter_cons, htag, Bool.not_false,
          Bool.false_eq_true, if_false, if_true, List.map_cons, List.getLastD_cons, gcbStep,
          hd, decide_eq_true_eq, decide_not, ne_eq, not_false_eq_true, Bool.not_true,
          decide_True, decide_False]

/-- C8 (amended): stripping works as claimed, and the last stripped
non-tag ref different from the default branch wins — but only when that
winner is nonempty: a ref that strips to the empty string (such as a bare
`origin/`) resets the selection, in which case (or when there is no
candidate at all) the last tag is returned when nonempty, and the default
branch otherwise; when no ref strips to the empty string this coincides
with the claimed policy. -/
theorem GetCommitBranch_amended (defaultBranch : GoStr) (refs : List GoStr) :
    (GetCommitBranch defaultBranch refs =
      (let b := ((strippedNonTagRefs refs).filter (fun r => r ≠ defaultBranch)).getLastD []
       let t := (strippedTagRefs refs).getLastD []
       if b ≠ [] then b else if t ≠ [] then t else defaultBranch)) ∧
    ([] ∉ strippedNonTagRefs refs → [] ∉ strippedTagRefs refs →
      GetCommitBranch defaultBranch refs = GetCommitBranchClaimed defaultBranch refs) := by
  have hfold := gcb_foldl defaultBranch refs ([], [])
  have hmain : GetCommitBranch defaultBranch refs =
      (if ((strippedNonTagRefs refs).filter (fun r => r ≠ defaultBranch)).getLastD [] ≠ [] then
        ((strippedNonTagRefs refs).filter (fun r => r ≠ defaultBranch)).getLastD []
      else if (strippedTagRefs refs).getLastD [] ≠ [] then (strippedTagRefs refs).getLastD []
      else defaultBranch) := by
    simp only [GetCommitBranch, hfold]
    by_cases hb :
        ((strippedNonTagRefs refs).filter (fun r => r ≠ defaultBranch)).getLastD [] = []
    · rw [if_pos hb, if_neg (not_not_intro hb)]
    · rw [if_neg hb, if_pos hb]
  refine ⟨hmain, ?_⟩
  intro hnb hnt
  rw [hmain]
  simp only [GetCommitBranchClaimed]
  have hfilter : (strippedNonTagRefs refs).filter (fun r => r ≠ defaultBranch ∧ r ≠ []) =
      (strippedNonTagRefs refs).filter (fun r => r ≠ defaultBranch) := by
    apply List.filter_congr
    intro x hx
    have hxne : x ≠ [] := fun hxx => hnb (hxx ▸ hx)
    simp [hxne]
  rw [hfilter]
  cases hlast : ((strippedNonTagRefs refs).filter (fun r => r ≠ defaultBranch)).getLast? with
  | some b =>
    have hbne : b ≠ [] := by
      intro hbb
      subst hbb
      have hmem := List.mem_of_mem_getLast? hlast
      exact hnb ((List.mem_filter.mp hmem).1)
    have hbd : ((strippedNonTagRefs refs).filter (fun r => r ≠ defaultBranch)).getLastD [] = b := by
      rw [List.getLastD_eq_getLast?, hlast]
      rfl
    rw [hbd, if_pos hbne]
  | none =>
    have hbd : ((strippedNonTagRefs refs).filter (fun r => r ≠ defaultBranch)).getLastD [] = [] := by
      rw [List.getLastD_eq_getLast?, hlast]
      rfl
    rw [hbd]
    simp only [ne_eq, not_true_eq_false, if_false]
    cases htlast : (strippedTagRefs refs).getLast? with
    | some t =>
      have htne : t ≠ [] := by
        intro htt
        subst htt
        exact hnt (List.mem_of_mem_getLast? htlast)
      have htd : (strippedTagRefs refs).getLastD [] = t := by
        rw [List.getLastD_eq_getLast?, htlast]
        rfl
      rw [htd, if_pos htne]
    | none =>
      have htd : (strippedTagRefs refs).getLastD [] = [] := by
        rw [List.getLastD_eq_getLast?, htlast]
        rfl
      rw [htd]
      simp

/-- Witness for C8 on refs with no empty-stripping ref. -/
theorem GetCommitBranch_amended_witness :
    ([] ∉ strippedNonTagRefs [gs "origin/main", gs "origin/dev", gs "tag: refs/tags/1.0"] ∧
      [] ∉ strippedTagRefs [gs "origin/main", gs "origin/dev", gs "tag: refs/tags/1.0"]) ∧
    GetCommitBranch (gs "main") [gs "origin/main", gs "origin/dev", gs "tag: refs/tags/1.0"] =
      GetCommitBranchClaimed (gs "main")
        [gs "origin/main", gs "origin/dev", gs "tag: refs/tags/1.0"] :=
  ⟨⟨by decide, by decide⟩,
    (GetCommitBranch_amended (gs "main")
      [gs "origin/main", gs "origin/dev", gs "tag: refs/tags/1.0"]).2 (by decide) (by decide)⟩

/-! Claim C3: rename rewriting.  Lemmas about substring indexes first. -/

theorem goIndex_singleton (c : Char) (a t : GoStr) (h : c ∉ a) :
    goIndex (a ++ c :: t) [c] = some a.length := by
  induction a with
  | nil =>
    simp only [List.nil_append, goIndex]
    rw [if_pos (by simp [List.isPrefixOf])]
    rfl
  | cons x a' ih =>
    have hx : ¬ x = c := fun hh => h (by rw [hh]; exact List.mem_cons_self _ _)
    have ha' : c ∉ a' := fun hh => h (List.mem_cons_of_mem _ hh)
    simp only [List.cons_append, goIndex]
    rw [if_neg (by simp [List.isPrefixOf]; exact fun hh => hx hh.symm)]
    simp only [List.append_eq]
    rw [ih ha']
    rfl

theorem goIndex_singleton_none (c : Char) (s : GoStr) (h : c ∉ s) :
    goIndex s [c] = none := by
  induction s with
  | nil => rfl
  | cons x rest ih =>
    have hx : ¬ x = c := fun hh => h (by rw [hh]; exact List.mem_cons_self _ _)
    have hrest : c ∉ rest := fun hh => h (List.mem_cons_of_mem _ hh)
    simp only [goIndex]
    rw [if_neg (by simp [List.isPrefixOf]; exact fun hh => hx hh.symm)]
    rw [ih hrest]
    rfl

theorem goIndex_of_first_occurrence (pat : GoStr) :
    ∀ (s : GoStr) (p : Nat), pat.isPrefixOf (s.drop p) = true →
      (∀ r < p, ¬ pat.isPrefixOf (s.drop r) = true) →
      goIndex s pat = some p := by
  intro s
  induction s with
  | nil =>
    intro p hp hbefore
    have hp0 : p = 0 := by
      by_contra hne
      exact hbefore 0 (by omega) (by simpa using hp)
    subst hp0
    simp only [List.drop_nil] at hp
    simp [goIndex, hp]
  | cons x xs ih =>
    intro p hp hbefore
    cases p with
    | zero =>
      simp only [List.drop_zero] at hp
      simp [goIndex, hp]
    | succ q =>
      have h0 : ¬ pat.isPrefixOf (x :: xs) = true := by
        have := hbefore 0 (by omega)
        simpa using this
      simp only [goIndex]
      rw [if_neg h0]
      have hq : goIndex xs pat = some q := by
        apply ih q
        · simpa using hp
        · intro r hr
          have := hbefore (r + 1) (by omega)
          simpa using this
      rw [hq]
      rfl

theorem goSplitF_ne_nil : ∀ (fuel : Nat) (s pat : GoStr), goSplitF fuel s pat ≠ [] := by
  intro fuel s pat
  cases fuel with
  | zero => simp [goSplitF]
  | succ n =>
    cases s with
    | nil => simp [goSplitF]
    | cons c rest =>
      simp only [goSplitF]
      by_cases h : pat ≠ [] ∧ pat.isPrefixOf (c :: rest) = true
      · rw [if_pos h]
        simp
      · rw [if_neg h]
        cases goSplitF n rest pat with
        | nil => simp
        | cons hh t => simp

theorem goSplitF_headD (pat : GoStr) (hpat : pat ≠ []) :
    ∀ (fuel : Nat) (u v : GoStr), (u ++ (pat ++ v)).length < fuel →
      (∀ r < u.length, ¬ pat.isPrefixOf ((u ++ (pat ++ v)).drop r) = true) →
      (goSplitF fuel (u ++ (pat ++ v)) pat).headD [] = u := by
  intro fuel
  induction fuel with
  | zero => intro u v h; omega
  | succ n ih =>
    intro u v hlen hbefore
    cases u with
    | nil =>
      obtain ⟨c, pr, rfl⟩ : ∃ c pr, pat = c :: pr := by
        cases pat with
        | nil => exact absurd rfl hpat
        | cons c pr => exact ⟨c, pr, rfl⟩
      simp only [List.nil_append, List.cons_append, goSplitF]
      rw [if_pos ⟨hpat, by
        have : ((c :: pr) ++ v) = c :: (pr ++ v) := by simp
        rw [← this]
        exact List.isPrefixOf_iff_prefix.mpr (List.prefix_append _ v)⟩]
      rfl
    | cons x u' =>
      have h0 : ¬ pat.isPrefixOf ((x :: u') ++ (pat ++ v)) = true := by
        have := hbefore 0 (by simp)
        simpa using this
      simp only [List.cons_append, goSplitF]
      rw [if_neg (by
        rintro ⟨-, hpp⟩
        exact h0 (by simpa using hpp))]
      have hrec : (goSplitF n (u' ++ (pat ++ v)) pat).headD [] = u' := by
        apply ih u' v
        · simp only [List.cons_append, List.length_cons] at hlen
          omega
        · intro r hr
          have := hbefore (r + 1) (by simp; omega)
          simpa using this
      cases hg : goSplitF n (u' ++ (pat ++ v)) pat with
      | nil => exact absurd hg (goSplitF_ne_nil n _ pat)
      | cons hh t =>
        rw [hg] at hrec
        simp only [List.headD_cons] at hrec
        simp [hrec]

theorem ExtractPrevFileName_rename (pre old new suf : GoStr)
    (h1 : '{' ∉ pre) (h2 : '}' ∉ pre) (h3 : '}' ∉ old) (h4 : '}' ∉ new)
    (h5 : ∀ r < ('{' :: old).length,
      ¬ (gs " => ").isPrefixOf
          ((('{' :: old) ++ (gs " => " ++ (new ++ '}' :: suf))).drop r) = true) :
    ExtractPrevFileName (pre ++ '{' :: (old ++ (gs " => " ++ (new ++ '}' :: suf)))) =
      pre ++ old ++ suf := by
  have hgb : (gs "\x7b") = ['{'] := rfl
  have hgc : (gs "\x7d") = ['}'] := rfl
  have hR : ('{' :: (old ++ (gs " => " ++ (new ++ '}' :: suf)))) =
      ('{' :: old) ++ (gs " => " ++ (new ++ '}' :: suf)) := by simp
  have hassoc : (pre ++ '{' :: (old ++ (gs " => " ++ (new ++ '}' :: suf)))) =
      (pre ++ '{' :: (old ++ (gs " => " ++ new))) ++ '}' :: suf := by
    simp [List.append_assoc]
  have hI : goIndex (pre ++ '{' :: (old ++ (gs " => " ++ (new ++ '}' :: suf)))) (gs "\x7b") =
      some pre.length := by
    rw [hgb]
    exact goIndex_singleton '{' pre _ h1
  have hnotA : '}' ∉ (pre ++ '{' :: (old ++ (gs " => " ++ new))) := by
    intro hm
    simp only [List.mem_append, List.mem_cons] at hm
    rcases hm with hm | hm | hm | hm | hm
    · exact h2 hm
    · exact absurd hm (by decide)
    · exact h3 hm
    · exact absurd hm (by decide)
    · exact h4 hm
  have hJ : goIndex (pre ++ '{' :: (old ++ (gs " => " ++ (new ++ '}' :: suf)))) (gs "\x7d") =
      some (pre ++ '{' :: (old ++ (gs " => " ++ new))).length := by
    rw [hgc, hassoc]
    exact goIndex_singleton '}' _ _ hnotA
  have hK : goIndexAt (pre ++ '{' :: (old ++ (gs " => " ++ (new ++ '}' :: suf))))
      (gs " => ") pre.length = some ((1 + old.length) + pre.length) := by
    simp only [goIndexAt, List.drop_left]
    have hinner : goIndex ('{' :: (old ++ (gs " => " ++ (new ++ '}' :: suf)))) (gs " => ") =
        some (1 + old.length) := by
      rw [hR]
      apply goIndex_of_first_occurrence
      · have hlen : ('{' :: old).length = 1 + old.length := by simp; omega
        rw [← hlen, List.drop_left]
        exact List.isPrefixOf_iff_prefix.mpr (List.prefix_append _ _)
      · intro r hr
        apply h5
        simp only [List.length_cons]
        omega
    rw [hinner]
    rfl
  simp only [ExtractPrevFileName]
  rw [hI, hJ]
  dsimp only
  rw [hK]
  dsimp only
  have ht1 : (pre ++ '{' :: (old ++ (gs " => " ++ (new ++ '}' :: suf)))).take pre.length =
      pre := List.take_left pre _
  have ht2 : (pre ++ '{' :: (old ++ (gs " => " ++ (new ++ '}' :: suf)))).drop
      (pre.length + 1) = old ++ (gs " => " ++ (new ++ '}' :: suf)) := by
    rw [List.drop_append]
    rfl
  have ht3 : (1 + old.length) + pre.length - (pre.length + 1) = old.length := by omega
  have ht4 : (old ++ (gs " => " ++ (new ++ '}' :: suf))).take old.length = old :=
    List.take_left old _
  have ht5 : (pre ++ '{' :: (old ++ (gs " => " ++ (new ++ '}' :: suf)))).drop
      ((pre ++ '{' :: (old ++ (gs " => " ++ new))).length + 1) = suf := by
    rw [hassoc, List.drop_append]
    rfl
  rw [ht1, ht2, ht3, ht4, ht5]

theorem ExtractPrevFileName_arrow (a b : GoStr)
    (hbrace : '{' ∉ (a ++ (gs " => " ++ b)) ∨ '}' ∉ (a ++ (gs " => " ++ b)))
    (hno : ∀ r < a.length,
      ¬ (gs " => ").isPrefixOf ((a ++ (gs " => " ++ b)).drop r) = true) :
    ExtractPrevFileName (a ++ (gs " => " ++ b)) = a := by
  have hgb : (gs "\x7b") = ['{'] := rfl
  have hgc : (gs "\x7d") = ['}'] := rfl
  have hidx : goIndex (a ++ (gs " => " ++ b)) (gs " => ") = some a.length := by
    apply goIndex_of_first_occurrence
    · rw [List.drop_left]
      exact List.isPrefixOf_iff_prefix.mpr (List.prefix_append _ _)
    · exact hno
  have hsplit : (goSplit (a ++ (gs " => " ++ b)) (gs " => ")).headD [] = a := by
    apply goSplitF_headD (gs " => ") (by decide)
    · omega
    · exact hno
  simp only [ExtractPrevFileName]
  rcases hbrace with hb | hb
  · rw [hgb, goIndex_singleton_none '{' _ hb]
    cases hj : goIndex (a ++ (gs " => " ++ b)) (gs "\x7d") with
    | none =>
      dsimp only
      rw [if_pos (by rw [hidx]; rfl)]
      exact hsplit
    | some j =>
      dsimp only
      rw [if_pos (by rw [hidx]; rfl)]
      exact hsplit
  · rw [hgc, goIndex_singleton_none '}' _ hb]
    cases hj : goIndex (a ++ (gs " => " ++ b)) (gs "\x7b") with
    | none =>
      dsimp only
      rw [if_pos (by rw [hidx]; rfl)]
      exact hsplit
    | some i =>
      dsimp only
      rw [if_pos (by rw [hidx]; rfl)]
      exact hsplit

/-- C3 counterexample: `ParseAction` indexes a rename-form path as
captured, without rewriting it to the old form, so an action line and a
stats line carrying the same `a/{old => new}/b` path produce two distinct
file records instead of collapsing into one. -/
theorem ParseAction_no_rewrite_cex :
    (ParseStats
        (ParseAction [] (gs "100644 100644 ") (gs "abc def ") (gs "R100")
          (gs "a/{old => new}/b") [])
        (gs "1") (gs "2") (gs "a/{old => new}/b")).length = 2 ∧
    (lookupKey
        (ParseStats
          (ParseAction [] (gs "100644 100644 ") (gs "abc def ") (gs "R100")
            (gs "a/{old => new}/b") [])
          (gs "1") (gs "2") (gs "a/{old => new}/b"))
        (gs "a/{old => new}/b")).isSome = true ∧
    (lookupKey
        (ParseStats
          (ParseAction [] (gs "100644 100644 ") (gs "abc def ") (gs "R100")
            (gs "a/{old => new}/b") [])
          (gs "1") (gs "2") (gs "a/{old => new}/b"))
        (gs "a/old/b")).isSome = true ∧
    ExtractPrevFileName (gs "a/{old => new}/b") = gs "a/old/b" ∧
    gs "a/{old => new}/b" ≠ gs "a/old/b" := by decide

/-- C3 (amended): only stats lines are rewritten before indexing — a
stats line's path is rewritten by `ExtractPrevFileName` (which maps
`a/{old => new}/b` to `a/old/b` and `a => b` to `a`) and its
added/removed counts accumulate by summation onto any existing record for
the rewritten path; an action line is indexed under its captured path
unchanged, so the two collapse into one record exactly when the action
line already carries the old-form path (as raw git output does, old and
new paths being separate tab-separated fields there). -/
theorem ParseStats_rename_rewrite_amended :
    (∀ cf aS rS fS,
      lookupKey (ParseStats cf aS rS fS) (ExtractPrevFileName fS) =
        some (match lookupKey cf (ExtractPrevFileName fS) with
          | none =>
            { file := some (ExtractPrevFileName fS)
              added := some (goAtoi aS)
              removed := some (goAtoi rS) }
          | some e =>
            { e with
              added := some (e.added.getD 0 + goAtoi aS)
              removed := some (e.removed.getD 0 + goAtoi rS) })) ∧
    (∀ cf m i act fA nf, ∃ e, lookupKey (ParseAction cf m i act fA nf) fA = some e ∧
      e.action = some act ∧ e.file = some fA) ∧
    (∀ pre old new suf, '{' ∉ pre → '}' ∉ pre → '}' ∉ old → '}' ∉ new →
      (∀ r < ('{' :: old).length,
        ¬ (gs " => ").isPrefixOf
            ((('{' :: old) ++ (gs " => " ++ (new ++ '}' :: suf))).drop r) = true) →
      ExtractPrevFileName (pre ++ '{' :: (old ++ (gs " => " ++ (new ++ '}' :: suf)))) =
        pre ++ old ++ suf) ∧
    (∀ a b, ('{' ∉ (a ++ (gs " => " ++ b)) ∨ '}' ∉ (a ++ (gs " => " ++ b))) →
      (∀ r < a.length,
        ¬ (gs " => ").isPrefixOf ((a ++ (gs " => " ++ b)).drop r) = true) →
      ExtractPrevFileName (a ++ (gs " => " ++ b)) = a) ∧
    (∀ m i act nf aS rS fS,
      (ParseStats (ParseAction [] m i act (ExtractPrevFileName fS) nf) aS rS fS).length = 1) := by
  refine ⟨?_, ?_, ExtractPrevFileName_rename, ExtractPrevFileName_arrow, ?_⟩
  · intro cf aS rS fS
    simp only [ParseStats]
    cases hprev : lookupKey cf (ExtractPrevFileName fS) with
    | none =>
      rw [lookupKey_mapInsert_self]
      simp
    | some e =>
      rw [lookupKey_mapInsert_self]
  · intro cf m i act fA nf
    simp only [ParseAction]
    exact ⟨_, lookupKey_mapInsert_self _ _ _, rfl, rfl⟩
  · intro m i act nf aS rS fS
    simp only [ParseAction, ParseStats, lookupKey, mapInsert]
    simp [lookupKey, mapInsert]

/-- Witness for C3 at the spec's rename scenario `a/{old => new}/f.c` and
at `a => b`. -/
theorem ParseStats_rename_rewrite_amended_witness :
    ExtractPrevFileName
        (gs "a/" ++ '{' :: (gs "old" ++ (gs " => " ++ (gs "new" ++ '}' :: gs "/f.c")))) =
      gs "a/" ++ gs "old" ++ gs "/f.c" ∧
    ExtractPrevFileName (gs "a" ++ (gs " => " ++ gs "b")) = gs "a" :=
  ⟨ParseStats_rename_rewrite_amended.2.2.1 (gs "a/") (gs "old") (gs "new") (gs "/f.c")
      (by decide) (by decide) (by decide) (by decide) (by decide),
   ParseStats_rename_rewrite_amended.2.2.2.1 (gs "a") (gs "b") (by decide) (by decide)⟩

/-! Claim C1: author weights. -/

theorem dedupContribAux_eq (l : List Contributor) :
    ∀ seen, (∀ c ∈ l, (c.identity, c.role) ∉ seen) →
      l.Pairwise (fun c d => ¬(c.identity = d.identity ∧ c.role = d.role)) →
      dedupContribAux seen l = l := by
  induction l with
  | nil => intro seen _ _; rfl
  | cons c rest ih =>
    intro seen hseen hpw
    have hc : (c.identity, c.role) ∉ seen := hseen c (List.mem_cons_self _ _)
    simp only [dedupContribAux, if_neg hc]
    rw [ih ((c.identity, c.role) :: seen) ?_ (List.Pairwise.of_cons hpw)]
    intro d hd
    intro hmem
    rcases List.mem_cons.mp hmem with heq | hmem2
    · have hne := (List.pairwise_cons.mp hpw).1 d hd
      have h1 : d.identity = c.identity := congrArg Prod.fst heq
      have h2 : d.role = c.role := congrArg Prod.snd heq
      exact hne ⟨h1.symm, h2.symm⟩
    · exact hseen d (List.mem_cons_of_mem _ hd) hmem2

theorem dedupAuthors_eq (l : List Contributor)
    (hca : ∀ c ∈ l, c.role = gs "co_author" →
      ∀ d ∈ l, d.role = gs "author" → c.identity ≠ d.identity) :
    dedupAuthors l = l := by
  simp only [dedupAuthors]
  rw [List.filter_eq_self]
  intro c hc
  by_cases hrole : c.role = gs "co_author"
  · have hnot : c.identity ∉ ((l.filter (fun d => d.role = gs "author")).map (·.identity)) := by
      intro hmem
      obtain ⟨d, hd, hdid⟩ := List.mem_map.mp hmem
      have hdl := List.mem_filter.mp hd
      exact hca c hc hrole d hdl.1 (by simpa using hdl.2) hdid.symm
    simp [hrole, hnot]
  · simp [hrole]

theorem sum_weights_aux (g : GoStr → ℚ) (mkI : GoStr × GoStr × GoStr → UserIdentity) :
    ∀ (types : List GoStr) (ids : List (GoStr × GoStr × GoStr)),
      types.length ≤ ids.length →
      authorWeightSum ((types.zip ids).map
          (fun p => { role := p.1, weight := g p.1, identity := mkI p.2 })) =
        ((types.filter (fun t => t = gs "author")).length : ℚ) * g (gs "author") := by
  intro types
  induction types with
  | nil =>
    intro ids _
    simp [authorWeightSum]
  | cons t ts ih =>
    intro ids hlen
    cases ids with
    | nil => simp at hlen
    | cons x xs =>
      have hlen' : ts.length ≤ xs.length := by
        simp only [List.length_cons] at hlen
        omega
      simp only [List.zip_cons_cons, List.map_cons]
      by_cases ht : t = gs "author"
      · simp only [authorWeightSum, List.filter_cons] at ih ⊢
        rw [if_pos (by simpa using ht)]
        rw [if_pos (by simpa using ht)]
        simp only [List.map_cons, List.sum_cons, List.length_cons]
        rw [ih xs hlen']
        push_cast
        rw [ht]
        ring
      · simp only [authorWeightSum, List.filter_cons] at ih ⊢
        rw [if_neg (by simpa using ht)]
        rw [if_neg (by simpa using ht)]
        exact ih xs hlen'

theorem filter_authOrCo_of_no_co (types : List GoStr) (h : (gs "co_author") ∉ types) :
    types.filter isAuthOrCo = types.filter (fun t => t = gs "author") := by
  apply List.filter_congr
  intro t ht
  have htne : t ≠ gs "co_author" := fun hh => h (hh ▸ ht)
  simp only [isAuthOrCo]
  by_cases ha : t = gs "author"
  · simp [ha]
  · simp [ha, htne]

/-- C1 counterexample: with pair programming on, one author plus one
distinct co-author gives `nCoAuthors = 2`, so the author-role weight is
`1/2` (the author weights sum to `1/2`, not `1.0`) and the co-author — a
non-author role — also carries weight `1/2` rather than `1.0`. -/
theorem GetModelData_author_weight_cex :
    authorWeightSum (getModelContributors true (gs "git")
        [(gs "Alice", gs "", gs "a@x"), (gs "Bob", gs "", gs "b@x")]
        [gs "author", gs "co_author"]) = 1 / 2 ∧
    (1 / 2 : ℚ) ≠ 1 ∧
    (∃ c ∈ getModelContributors true (gs "git")
        [(gs "Alice", gs "", gs "a@x"), (gs "Bob", gs "", gs "b@x")]
        [gs "author", gs "co_author"],
      c.role = gs "co_author" ∧ c.weight ≠ 1) := by
  have has : isAuthOrCo (gs "author") = true := by decide
  have hcs : isAuthOrCo (gs "co_author") = true := by decide
  have hn : (List.filter isAuthOrCo [gs "author", gs "co_author"]).length = 2 := by decide
  have hlist : getModelContributors true (gs "git")
      [(gs "Alice", gs "", gs "a@x"), (gs "Bob", gs "", gs "b@x")]
      [gs "author", gs "co_author"] =
      [{ role := gs "author", weight := 1 / 2,
         identity := { source := gs "git", email := gs "a@x", name := gs "Alice",
                       username := [] } },
       { role := gs "co_author", weight := 1 / 2,
         identity := { source := gs "git", email := gs "b@x", name := gs "Bob",
                       username := [] } }] := by
    simp only [getModelContributors, commitRolesOf, hn, has, hcs, List.zip_cons_cons,
      List.zip_nil_right, List.map_cons, List.map_nil, DedupContributors, dedupContribAux,
      dedupAuthors]
    norm_num [dedupContribAux, List.filter]
    have e1 : ¬ (gs "author" = gs "co_author") := by decide
    have e2 : ¬ (gs "co_author" = gs "author") := by decide
    have e3 : ¬ (gs "b@x" = gs "a@x") := by decide
    simp [e1, e2, e3]
  rw [hlist]
  refine ⟨?_, by norm_num, ?_⟩
  · have e2 : ¬ (gs "co_author" = gs "author") := by decide
    simp [authorWeightSum, List.filter, e2]
  · refine ⟨_, List.mem_cons_of_mem _ (List.mem_cons_self _ _), rfl, by norm_num⟩

/-- C1 (amended): with pair programming enabled the shared weight is
computed over the author and co-author entries together: when
`n = #authors + #co-authors > 1`, every author-role and co-author-role
contributor carries weight `1/n` (so the author weights sum to
`#authors / n`, which is `1.0` exactly when there are no co-author
entries and at least one author); contributors in any other role carry
weight `1.0`; with pair programming disabled every weight is `1.0`.
Weights are modelled as exact rationals in place of the source's
float64. -/
theorem GetModelData_author_weights_amended (pp : Bool) (source : GoStr)
    (idents : List (GoStr × GoStr × GoStr)) (identTypes : List GoStr)
    (hlen : identTypes.length ≤ idents.length)
    (hkeys : (commitRolesOf pp source idents identTypes).Pairwise
      (fun c d => ¬(c.identity = d.identity ∧ c.role = d.role)))
    (hca : ∀ c ∈ commitRolesOf pp source idents identTypes, c.role = gs "co_author" →
      ∀ d ∈ commitRolesOf pp source idents identTypes, d.role = gs "author" →
        c.identity ≠ d.identity) :
    getModelContributors pp source idents identTypes =
      commitRolesOf pp source idents identTypes ∧
    (∀ c ∈ commitRolesOf pp source idents identTypes,
      isAuthOrCo c.role = false → c.weight = 1) ∧
    (pp = false → ∀ c ∈ commitRolesOf pp source idents identTypes, c.weight = 1) ∧
    (pp = true → 1 < (identTypes.filter isAuthOrCo).length →
      ∀ c ∈ commitRolesOf pp source idents identTypes, isAuthOrCo c.role = true →
        c.weight = 1 / ((identTypes.filter isAuthOrCo).length : ℚ)) ∧
    (authorWeightSum (commitRolesOf pp source idents identTypes) =
      ((identTypes.filter (fun t => t = gs "author")).length : ℚ) *
        (if pp = true ∧ 1 < (identTypes.filter isAuthOrCo).length then
          1 / ((identTypes.filter isAuthOrCo).length : ℚ) else 1)) ∧
    (pp = true → (gs "co_author") ∉ identTypes →
      1 ≤ (identTypes.filter (fun t => t = gs "author")).length →
      authorWeightSum (commitRolesOf pp source idents identTypes) = 1) := by
  have hwmem : ∀ c ∈ commitRolesOf pp source idents identTypes,
      ∃ t, c.role = t ∧ c.weight =
        (if pp = true ∧ isAuthOrCo t = true then
          (if pp = true ∧ 1 < (identTypes.filter isAuthOrCo).length then
            1 / ((identTypes.filter isAuthOrCo).length : ℚ) else 1)
         else 1) := by
    intro c hc
    simp only [commitRolesOf] at hc
    obtain ⟨p, _, rfl⟩ := List.mem_map.mp hc
    exact ⟨p.1, rfl, rfl⟩
  have hsum : authorWeightSum (commitRolesOf pp source idents identTypes) =
      ((identTypes.filter (fun t => t = gs "author")).length : ℚ) *
        (if pp = true ∧ 1 < (identTypes.filter isAuthOrCo).length then
          1 / ((identTypes.filter isAuthOrCo).length : ℚ) else 1) := by
    have haux := sum_weights_aux
      (fun t => if pp = true ∧ isAuthOrCo t = true then
        (if pp = true ∧ 1 < (identTypes.filter isAuthOrCo).length then
          1 / ((identTypes.filter isAuthOrCo).length : ℚ) else 1) else 1)
      (fun q => { source := source, email := q.2.2, name := q.1, username := [] })
      identTypes idents hlen
    rw [show commitRolesOf pp source idents identTypes =
        (identTypes.zip idents).map
          (fun p =>
            { role := p.1,
              weight := if pp = true ∧ isAuthOrCo p.1 = true then
                  (if pp = true ∧ 1 < (identTypes.filter isAuthOrCo).length then
                    1 / ((identTypes.filter isAuthOrCo).length : ℚ) else 1) else 1,
              identity := { source := source, email := p.2.2.2, name := p.2.1,
                            username := [] } }) from rfl]
    rw [haux]
    have hiso : isAuthOrCo (gs "author") = true := by decide
    by_cases hpp : pp = true
    · simp only [hpp, hiso, true_and, and_true, if_true]
    · have hppf : pp = false := by
        cases pp
        · rfl
        · exact absurd rfl hpp
      simp only [hppf, false_and, if_false]
      simp
  refine ⟨?_, ?_, ?_, ?_, hsum, ?_⟩
  · simp only [getModelContributors, DedupContributors]
    rw [dedupContribAux_eq _ [] (by simp) hkeys]
    exact dedupAuthors_eq _ hca
  · intro c hc hfalse
    obtain ⟨t, hrole, hw⟩ := hwmem c hc
    rw [hw, if_neg]
    rintro ⟨-, hiso⟩
    rw [← hrole] at hiso
    rw [hfalse] at hiso
    cases hiso
  · intro hpp c hc
    obtain ⟨t, hrole, hw⟩ := hwmem c hc
    rw [hw]
    rw [if_neg (by rintro ⟨h1, -⟩; rw [hpp] at h1; cases h1)]
  · intro hpp hn c hc hiso
    obtain ⟨t, hrole, hw⟩ := hwmem c hc
    rw [hw, if_pos ⟨hpp, by rw [← hrole]; exact hiso⟩, if_pos ⟨hpp, hn⟩]
  · intro hpp hno hone
    rw [hsum, filter_authOrCo_of_no_co identTypes hno]
    by_cases hlt : 1 < (identTypes.filter (fun t => t = gs "author")).length
    · rw [if_pos ⟨hpp, hlt⟩]
      have hne : ((identTypes.filter (fun t => t = gs "author")).length : ℚ) ≠ 0 := by
        have : 0 < (identTypes.filter (fun t => t = gs "author")).length := by omega
        exact_mod_cast Nat.pos_iff_ne_zero.mp this
      field_simp
    · rw [if_neg (by rintro ⟨-, hl⟩; exact hlt hl)]
      have hone' : (identTypes.filter (fun t => t = gs "author")).length = 1 := by omega
      rw [hone']
      norm_num

/-- Witness for C1 at a pair-programming commit with two distinct authors
and no co-authors: the author weights sum to exactly 1. -/
theorem GetModelData_author_weights_amended_witness :
    (([gs "author", gs "author"] : List GoStr).length ≤
        ([(gs "Alice", gs "", gs "a@x"), (gs "Bob", gs "", gs "b@x")] :
          List (GoStr × GoStr × GoStr)).length ∧
      (gs "co_author") ∉ [gs "author", gs "author"] ∧
      1 ≤ (([gs "author", gs "author"] : List GoStr).filter
            (fun t => t = gs "author")).length) ∧
    authorWeightSum (commitRolesOf true (gs "git")
        [(gs "Alice", gs "", gs "a@x"), (gs "Bob", gs "", gs "b@x")]
        [gs "author", gs "author"]) = 1 := by
  refine ⟨⟨by decide, by decide, by decide⟩, ?_⟩
  exact (GetModelData_author_weights_amended true (gs "git")
      [(gs "Alice", gs "", gs "a@x"), (gs "Bob", gs "", gs "b@x")]
      [gs "author", gs "author"] (by decide) (by decide) (by decide)).2.2.2.2.2
    rfl (by decide) (by decide)

/-! Claim C2: content-hash deduplication across packs and runs. -/

/-- The cache maps `H` to an entry whose hash column is `H`. -/
def hashKeyOk (st : CacheState) (H : GoStr) : Prop :=
  ∃ e, lookupKey st.cachedCommits H = some e ∧ e.hash = H

/-- As `hashKeyOk`, with the entry's orphaned flag cleared. -/
def hashKeyCleared (st : CacheState) (H : GoStr) : Prop :=
  ∃ e, lookupKey st.cachedCommits H = some e ∧ e.hash = H ∧ e.orphaned = false

theorem lookupKey_mem {β : Type} (m : List (GoStr × β)) (k : GoStr) (v : β)
    (h : lookupKey m k = some v) : (k, v) ∈ m := by
  induction m with
  | nil => simp [lookupKey] at h
  | cons hd tl ih =>
    obtain ⟨k0, w⟩ := hd
    simp only [lookupKey] at h
    by_cases h0 : k0 = k
    · rw [if_pos h0] at h
      cases h
      subst h0
      exact List.mem_cons_self _ _
    · rw [if_neg h0] at h
      exact List.mem_cons_of_mem _ (ih h)

theorem isHashCreated_keeps_hashKeyOk (st : CacheState) (h H : GoStr)
    (hk : hashKeyOk st H) : hashKeyOk (isHashCreated st h).2 H := by
  obtain ⟨e, he, hhe⟩ := hk
  simp only [isHashCreated]
  cases hl : lookupKey st.cachedCommits h with
  | none => exact ⟨e, he, hhe⟩
  | some c =>
    by_cases hhH : h = H
    · subst hhH
      rw [he] at hl
      cases hl
      exact ⟨{ e with orphaned := false }, by simp [lookupKey_mapInsert_self], hhe⟩
    · exact ⟨e, by rw [lookupKey_mapInsert_ne _ _ _ _ (fun hh => hhH hh.symm)]; exact he, hhe⟩

theorem isHashCreated_keeps_cleared (st : CacheState) (h H : GoStr)
    (hk : hashKeyCleared st H) : hashKeyCleared (isHashCreated st h).2 H := by
  obtain ⟨e, he, hhe, hoe⟩ := hk
  simp only [isHashCreated]
  cases hl : lookupKey st.cachedCommits h with
  | none => exact ⟨e, he, hhe, hoe⟩
  | some c =>
    by_cases hhH : h = H
    · subst hhH
      rw [he] at hl
      cases hl
      exact ⟨{ e with orphaned := false }, by simp [lookupKey_mapInsert_self], hhe, rfl⟩
    · exact ⟨e, by rw [lookupKey_mapInsert_ne _ _ _ _ (fun hh => hhH hh.symm)]; exact he,
        hhe, hoe⟩

theorem isHashCreated_hit (st : CacheState) (H : GoStr) (hk : hashKeyOk st H) :
    (isHashCreated st H).1 = true ∧ hashKeyCleared (isHashCreated st H).2 H := by
  obtain ⟨e, he, hhe⟩ := hk
  simp only [isHashCreated, he]
  exact ⟨trivial, ⟨{ e with orphaned := false }, by simp [lookupKey_mapInsert_self], hhe, rfl⟩⟩

theorem packStep_state_cached (hashFn : CommitHashFields → GoStr)
    (serialize : MCommit → GoStr) (res : PackResult) (d : MCommit) :
    (packStep hashFn serialize res d).state.cachedCommits =
      (isHashCreated res.state (createHash hashFn d)).2.cachedCommits := by
  simp only [packStep]
  by_cases h1 : ¬(isHashCreated res.state (createHash hashFn d)).1 = true ∧
      ¬isCommitCreated (isHashCreated res.state (createHash hashFn d)).2 d.id = true
  · rw [if_pos h1]
  · rw [if_neg h1]
    by_cases h2 : isCommitCreated (isHashCreated res.state (createHash hashFn d)).2 d.id =
        true ∧ ¬(isHashCreated res.state (createHash hashFn d)).1 = true
    · rw [if_pos h2]
    · rw [if_neg h2]

theorem packStep_keeps_hashKeyOk (hashFn : CommitHashFields → GoStr)
    (serialize : MCommit → GoStr) (res : PackResult) (d : MCommit)
    (hk : hashKeyOk res.state H) : hashKeyOk (packStep hashFn serialize res d).state H := by
  have h1 := isHashCreated_keeps_hashKeyOk res.state (createHash hashFn d) H hk
  obtain ⟨e, he, hhe⟩ := h1
  exact ⟨e, by rw [packStep_state_cached]; exact he, hhe⟩

theorem packStep_keeps_cleared (hashFn : CommitHashFields → GoStr)
    (serialize : MCommit → GoStr) (res : PackResult) (d : MCommit)
    (hk : hashKeyCleared res.state H) :
    hashKeyCleared (packStep hashFn serialize res d).state H := by
  have h1 := isHashCreated_keeps_cleared res.state (createHash hashFn d) H hk
  obtain ⟨e, he, hhe, hoe⟩ := h1
  exact ⟨e, by rw [packStep_state_cached]; exact he, hhe, hoe⟩

theorem packStep_skip (hashFn : CommitHashFields → GoStr) (serialize : MCommit → GoStr)
    (res : PackResult) (d : MCommit) (hk : hashKeyOk res.state H)
    (hd : createHash hashFn d = H) :
    (packStep hashFn serialize res d).created = res.created ∧
    (packStep hashFn serialize res d).updated = res.updated ∧
    (packStep hashFn serialize res d).commits = res.commits ∧
    (packStep hashFn serialize res d).updateCommits = res.updateCommits ∧
    hashKeyCleared (packStep hashFn serialize res d).state H := by
  have hhit := isHashCreated_hit res.state H hk
  have hex : (isHashCreated res.state (createHash hashFn d)).1 = true := by
    rw [hd]; exact hhit.1
  have hcl : hashKeyCleared (isHashCreated res.state (createHash hashFn d)).2 H := by
    rw [hd]; exact hhit.2
  obtain ⟨e, he, hhe, hoe⟩ := hcl
  simp only [packStep]
  rw [if_neg (by rintro ⟨ha, -⟩; exact ha hex),
    if_neg (by rintro ⟨-, ha⟩; exact ha hex)]
  exact ⟨rfl, rfl, rfl, rfl, ⟨e, he, hhe, hoe⟩⟩

theorem packStep_provenance (hashFn : CommitHashFields → GoStr)
    (serialize : MCommit → GoStr) (res : PackResult) (d : MCommit)
    (hk : hashKeyOk res.state H) :
    (∀ c ∈ (packStep hashFn serialize res d).created,
      c ∈ res.created ∨ createHash hashFn c ≠ H) ∧
    (∀ c ∈ (packStep hashFn serialize res d).updated,
      c ∈ res.updated ∨ createHash hashFn c ≠ H) ∧
    (∀ x ∈ (packStep hashFn serialize res d).commits, x ∈ res.commits ∨ x.entityID = d.id) ∧
    (∀ x ∈ (packStep hashFn serialize res d).updateCommits,
      x ∈ res.updateCommits ∨ x.entityID = d.id) := by
  by_cases hdH : createHash hashFn d = H
  · obtain ⟨h1, h2, h3, h4, -⟩ := packStep_skip hashFn serialize res d hk hdH
    rw [h1, h2, h3, h4]
    exact ⟨fun c hc => Or.inl hc, fun c hc => Or.inl hc,
      fun x hx => Or.inl hx, fun x hx => Or.inl hx⟩
  · simp only [packStep]
    by_cases hb1 : ¬(isHashCreated res.state (createHash hashFn d)).1 = true ∧
        ¬isCommitCreated (isHashCreated res.state (createHash hashFn d)).2 d.id = true
    · rw [if_pos hb1]
      refine ⟨?_, fun c hc => Or.inl hc, ?_, fun x hx => Or.inl hx⟩
      · intro c hc
        rcases List.mem_append.mp hc with hc | hc
        · exact Or.inl hc
        · rw [List.mem_singleton.mp hc]
          exact Or.inr hdH
      · intro x hx
        rcases List.mem_append.mp hx with hx | hx
        · exact Or.inl hx
        · rw [List.mem_singleton.mp hx]
          exact Or.inr rfl
    · rw [if_neg hb1]
      by_cases hb2 : isCommitCreated (isHashCreated res.state (createHash hashFn d)).2 d.id =
          true ∧ ¬(isHashCreated res.state (createHash hashFn d)).1 = true
      · rw [if_pos hb2]
        refine ⟨fun c hc => Or.inl hc, ?_, fun x hx => Or.inl hx, ?_⟩
        · intro c hc
          rcases List.mem_append.mp hc with hc | hc
          · exact Or.inl hc
          · rw [List.mem_singleton.mp hc]
            exact Or.inr hdH
        · intro x hx
          rcases List.mem_append.mp hx with hx | hx
          · exact Or.inl hx
          · rw [List.mem_singleton.mp hx]
            exact Or.inr rfl
      · rw [if_neg hb2]
        exact ⟨fun c hc => Or.inl hc, fun c hc => Or.inl hc,
          fun x hx => Or.inl hx, fun x hx => Or.inl hx⟩

theorem packFold_keeps_hashKeyOk (hashFn : CommitHashFields → GoStr)
    (serialize : MCommit → GoStr) (pack : List MCommit) :
    ∀ res : PackResult, hashKeyOk res.state H →
      hashKeyOk (pack.foldl (packStep hashFn serialize) res).state H := by
  induction pack with
  | nil => intro res hk; simpa using hk
  | cons d t ih =>
    intro res hk
    simp only [List.foldl_cons]
    exact ih _ (packStep_keeps_hashKeyOk hashFn serialize res d hk)

theorem packFold_keeps_cleared (hashFn : CommitHashFields → GoStr)
    (serialize : MCommit → GoStr) (pack : List MCommit) :
    ∀ res : PackResult, hashKeyCleared res.state H →
      hashKeyCleared (pack.foldl (packStep hashFn serialize) res).state H := by
  induction pack with
  | nil => intro res hk; simpa using hk
  | cons d t ih =>
    intro res hk
    simp only [List.foldl_cons]
    exact ih _ (packStep_keeps_cleared hashFn serialize res d hk)

theorem packFold_created (hashFn : CommitHashFields → GoStr)
    (serialize : MCommit → GoStr) (pack : List MCommit) :
    ∀ res : PackResult, hashKeyOk res.state H →
      ∀ c ∈ (pack.foldl (packStep hashFn serialize) res).created,
        c ∈ res.created ∨ createHash hashFn c ≠ H := by
  induction pack with
  | nil => intro res _ c hc; exact Or.inl (by simpa using hc)
  | cons d t ih =>
    intro res hk c hc
    simp only [List.foldl_cons] at hc
    have hk' := packStep_keeps_hashKeyOk hashFn serialize res d hk
    rcases ih _ hk' c hc with h | h
    · exact (packStep_provenance hashFn serialize res d hk).1 c h
    · exact Or.inr h

theorem packFold_commits (hashFn : CommitHashFields → GoStr)
    (serialize : MCommit → GoStr) (pack : List MCommit) :
    ∀ res : PackResult, hashKeyOk res.state H →
      ∀ x ∈ (pack.foldl (packStep hashFn serialize) res).commits,
        x ∈ res.commits ∨ ∃ d ∈ pack, x.entityID = d.id := by
  induction pack with
  | nil => intro res _ x hx; exact Or.inl (by simpa using hx)
  | cons d t ih =>
    intro res hk x hx
    simp only [List.foldl_cons] at hx
    have hk' := packStep_keeps_hashKeyOk hashFn serialize res d hk
    rcases ih _ hk' x hx with h | h
    · rcases (packStep_provenance hashFn serialize res d hk).2.2.1 x h with h2 | h2
      · exact Or.inl h2
      · exact Or.inr ⟨d, List.mem_cons_self _ _, h2⟩
    · obtain ⟨e, he, hee⟩ := h
      exact Or.inr ⟨e, List.mem_cons_of_mem _ he, hee⟩

theorem packFold_updateCommits (hashFn : CommitHashFields → GoStr)
    (serialize : MCommit → GoStr) (pack : List MCommit) :
    ∀ res : PackResult, hashKeyOk res.state H →
      ∀ x ∈ (pack.foldl (packStep hashFn serialize) res).updateCommits,
        x ∈ res.updateCommits ∨ ∃ d ∈ pack, x.entityID = d.id := by
  induction pack with
  | nil => intro res _ x hx; exact Or.inl (by simpa using hx)
  | cons d t ih =>
    intro res hk x hx
    simp only [List.foldl_cons] at hx
    have hk' := packStep_keeps_hashKeyOk hashFn serialize res d hk
    rcases ih _ hk' x hx with h | h
    · rcases (packStep_provenance hashFn serialize res d hk).2.2.2 x h with h2 | h2
      · exact Or.inl h2
      · exact Or.inr ⟨d, List.mem_cons_self _ _, h2⟩
    · obtain ⟨e, he, hee⟩ := h
      exact Or.inr ⟨e, List.mem_cons_of_mem _ he, hee⟩

theorem packFold_cleared_of_mem (hashFn : CommitHashFields → GoStr)
    (serialize : MCommit → GoStr) (pack : List MCommit) :
    ∀ res : PackResult, hashKeyOk res.state H →
      (∃ d ∈ pack, createHash hashFn d = H) →
      hashKeyCleared (pack.foldl (packStep hashFn serialize) res).state H := by
  induction pack with
  | nil => intro res _ hex; exact absurd hex (by simp)
  | cons d t ih =>
    intro res hk hex
    simp only [List.foldl_cons]
    obtain ⟨e, he, hee⟩ := hex
    rcases List.mem_cons.mp he with rfl | hmem
    · have hskip := packStep_skip hashFn serialize res e hk hee
      exact packFold_keeps_cleared hashFn serialize t _ hskip.2.2.2.2
    · exact ih _ (packStep_keeps_hashKeyOk hashFn serialize res d hk) ⟨e, hmem, hee⟩

theorem cacheFold_lookup (path : GoStr) (cache : List CommitCache) :
    ∀ m : List (GoStr × CommitCache), (∀ x ∈ cache, x.entityID ≠ H) →
      lookupKey
        (cache.foldl
          (fun m comm => mapInsert m comm.entityID { comm with fileLocation := path }) m) H =
      lookupKey m H := by
  induction cache with
  | nil => intro m _; rfl
  | cons x t ih =>
    intro m hne
    simp only [List.foldl_cons]
    rw [ih _ (fun y hy => hne y (List.mem_cons_of_mem _ hy))]
    exact lookupKey_mapInsert_ne _ _ _ _ (Ne.symm (hne x (List.mem_cons_self _ _)))

theorem createCacheFile_keeps_hashKeyOk (st : CacheState) (cache : List CommitCache)
    (path : GoStr) (hne : ∀ x ∈ cache, x.entityID ≠ H) (hk : hashKeyOk st H) :
    hashKeyOk (createCacheFile st cache path) H := by
  obtain ⟨e, he, hee⟩ := hk
  refine ⟨e, ?_, hee⟩
  simp only [createCacheFile]
  rw [cacheFold_lookup path cache st.cachedCommits hne]
  exact he

theorem createCacheFile_keeps_cleared (st : CacheState) (cache : List CommitCache)
    (path : GoStr) (hne : ∀ x ∈ cache, x.entityID ≠ H) (hk : hashKeyCleared st H) :
    hashKeyCleared (createCacheFile st cache path) H := by
  obtain ⟨e, he, hee, hoe⟩ := hk
  refine ⟨e, ?_, hee, hoe⟩
  simp only [createCacheFile]
  rw [cacheFold_lookup path cache st.cachedCommits hne]
  exact he

theorem processPack_facts (hashFn : CommitHashFields → GoStr) (serialize : MCommit → GoStr)
    (st0 : CacheState) (pack : List MCommit) (path pathU : GoStr)
    (hk : hashKeyOk st0 H) (hid : ∀ c ∈ pack, c.id ≠ H) :
    hashKeyOk (processPack hashFn serialize st0 pack path pathU).1 H ∧
    ∀ c ∈ (processPack hashFn serialize st0 pack path pathU).2.1,
      createHash hashFn c ≠ H := by
  have hk0 : hashKeyOk
      (PackResult.mk st0 [] [] [] []).state H := hk
  have hkr : hashKeyOk (processPackLoop hashFn serialize st0 pack).state H :=
    packFold_keeps_hashKeyOk hashFn serialize pack _ hk0
  have hcomm : ∀ x ∈ (processPackLoop hashFn serialize st0 pack).commits,
      x.entityID ≠ H := by
    intro x hx
    rcases packFold_commits hashFn serialize pack _ hk0 x hx with h | ⟨d, hd, hde⟩
    · simp at h
    · rw [hde]; exact hid d hd
  have hupd : ∀ x ∈ (processPackLoop hashFn serialize st0 pack).updateCommits,
      x.entityID ≠ H := by
    intro x hx
    rcases packFold_updateCommits hashFn serialize pack _ hk0 x hx with h | ⟨d, hd, hde⟩
    · simp at h
    · rw [hde]; exact hid d hd
  have hcreated : ∀ c ∈ (processPackLoop hashFn serialize st0 pack).created,
      createHash hashFn c ≠ H := by
    intro c hc
    rcases packFold_created hashFn serialize pack _ hk0 c hc with h | h
    · simp at h
    · exact h
  constructor
  · simp only [processPack]
    split
    · split
      · exact createCacheFile_keeps_hashKeyOk _ _ _ hupd
          (createCacheFile_keeps_hashKeyOk _ _ _ hcomm hkr)
      · exact createCacheFile_keeps_hashKeyOk _ _ _ hupd hkr
    · split
      · exact createCacheFile_keeps_hashKeyOk _ _ _ hcomm hkr
      · exact hkr
  · simp only [processPack]
    exact hcreated

theorem runPacks_dedup (hashFn : CommitHashFields → GoStr) (serialize : MCommit → GoStr)
    (packs : List (List MCommit × GoStr × GoStr)) :
    ∀ st : CacheState, hashKeyOk st H → (∀ p ∈ packs, ∀ c ∈ p.1, c.id ≠ H) →
      hashKeyOk (runPacks hashFn serialize st packs).1 H ∧
      ∀ c ∈ (runPacks hashFn serialize st packs).2, createHash hashFn c ≠ H := by
  induction packs with
  | nil => intro st hk _; exact ⟨hk, by simp [runPacks]⟩
  | cons p rest ih =>
    intro st hk hid
    obtain ⟨pack, path, pathU⟩ := p
    simp only [runPacks]
    have hfacts := processPack_facts hashFn serialize st pack path pathU hk
      (fun c hc => hid (pack, path, pathU) (List.mem_cons_self _ _) c hc)
    have hrest := ih (processPack hashFn serialize st pack path pathU).1 hfacts.1
      (fun q hq => hid q (List.mem_cons_of_mem _ hq))
    refine ⟨hrest.1, ?_⟩
    intro c hc
    rcases List.mem_append.mp hc with h | h
    · exact hfacts.2 c h
    · exact hrest.2 c h

theorem persistRows_hash (st : CacheState) (hk : hashKeyOk st H) :
    ∃ row ∈ persistRows st, row.hash = H := by
  obtain ⟨e, he, hee⟩ := hk
  simp only [persistRows]
  exact ⟨e, List.mem_map_of_mem _ (lookupKey_mem _ _ _ he), hee⟩

theorem getCacheStep_keeps (b : Bool) (st : CacheState) (record : CommitCache)
    (hk : hashKeyOk st H) : hashKeyOk (getCacheStep b st record) H := by
  obtain ⟨e, he, hee⟩ := hk
  by_cases hrh : record.hash = H
  · subst hrh
    refine ⟨{ record with orphaned := if b then true else record.orphaned }, ?_, rfl⟩
    simp only [getCacheStep]
    exact lookupKey_mapInsert_self _ _ _
  · refine ⟨e, ?_, hee⟩
    simp only [getCacheStep]
    rw [lookupKey_mapInsert_ne _ _ _ _ (fun hh => hrh hh.symm)]
    exact he

theorem getCacheStep_sets (b : Bool) (st : CacheState) (record : CommitCache)
    (hrh : record.hash = H) : hashKeyOk (getCacheStep b st record) H := by
  subst hrh
  refine ⟨{ record with orphaned := if b then true else record.orphaned }, ?_, rfl⟩
  simp only [getCacheStep]
  exact lookupKey_mapInsert_self _ _ _

theorem getCacheFold (b : Bool) (rows : List CommitCache) :
    ∀ st : CacheState, ((∃ row ∈ rows, row.hash = H) ∨ hashKeyOk st H) →
      hashKeyOk (rows.foldl (getCacheStep b) st) H := by
  induction rows with
  | nil =>
    intro st h
    rcases h with h | h
    · exact absurd h (by simp)
    · simpa using h
  | cons r t ih =>
    intro st h
    simp only [List.foldl_cons]
    rcases h with ⟨row, hrow, hh⟩ | h
    · rcases List.mem_cons.mp hrow with rfl | hmem
      · exact ih _ (Or.inr (getCacheStep_sets b st row hh))
      · exact ih _ (Or.inl ⟨row, hmem, hh⟩)
    · exact ih _ (Or.inr (getCacheStep_keeps b st r h))

theorem getCache_hashKeyOk (rows : List CommitCache) (b : Bool)
    (h : ∃ row ∈ rows, row.hash = H) : hashKeyOk (getCache rows b) H := by
  simp only [getCache]
  exact getCacheFold b rows _ (Or.inl h)

theorem runsModel_dedup (hashFn : CommitHashFields → GoStr) (serialize : MCommit → GoStr)
    (runs : List (Bool × List (List MCommit × GoStr × GoStr))) :
    ∀ rows : List CommitCache, (∃ row ∈ rows, row.hash = H) →
      (∀ run ∈ runs, ∀ p ∈ run.2, ∀ c ∈ p.1, c.id ≠ H) →
      (∃ row ∈ (runsModel hashFn serialize rows runs).1, row.hash = H) ∧
      ∀ c ∈ (runsModel hashFn serialize rows runs).2, createHash hashFn c ≠ H := by
  induction runs with
  | nil =>
    intro rows hrow _
    exact ⟨by simpa [runsModel] using hrow, by simp [runsModel]⟩
  | cons run rest ih =>
    intro rows hrow hid
    obtain ⟨b, packs⟩ := run
    simp only [runsModel]
    have hst : hashKeyOk (getCache rows b) H := getCache_hashKeyOk rows b hrow
    have hrp := runPacks_dedup hashFn serialize packs (getCache rows b) hst
      (fun p hp => hid (b, packs) (List.mem_cons_self _ _) p hp)
    have hpersist : ∃ row ∈ persistRows (runPacks hashFn serialize (getCache rows b) packs).1,
        row.hash = H := persistRows_hash _ hrp.1
    have hrest := ih (persistRows (runPacks hashFn serialize (getCache rows b) packs).1)
      hpersist (fun q hq => hid q (List.mem_cons_of_mem _ hq))
    refine ⟨hrest.1, ?_⟩
    intro c hc
    rcases List.mem_append.mp hc with h | h
    · exact hrp.2 c h
    · exact hrest.2 c h

/-- C2 (amended): for a non-hot repository - `IsHotRep = false`, the
single `commits-cache.csv` - over any sequence of runs whose persisted
cache starts with a row carrying content hash `H` (and whose commit
entity ids differ from `H`, as UUIDs differ from SHA-256 digests), no
commit whose elected-field hash is `H` is ever emitted as
`commit.created` - in the first run or any later one; and within any
pack, a commit whose hash hits the cache is skipped with the matching
cache entry's orphaned flag cleared to false.  (In the hot-repository
branch the original claim fails across shards; see the counterexample
below.) -/
theorem GitEnrichItems_hash_dedup (hashFn : CommitHashFields → GoStr)
    (serialize : MCommit → GoStr) (H : GoStr) (rows0 : List CommitCache)
    (runs : List (Bool × List (List MCommit × GoStr × GoStr)))
    (hrow : ∃ row ∈ rows0, row.hash = H)
    (hids : ∀ run ∈ runs, ∀ pack ∈ run.2, ∀ c ∈ pack.1, c.id ≠ H) :
    (∀ c ∈ (runsModel hashFn serialize rows0 runs).2, createHash hashFn c ≠ H) ∧
    ∀ st pack, hashKeyOk st H → (∃ d ∈ pack, createHash hashFn d = H) →
      hashKeyCleared (processPackLoop hashFn serialize st pack).state H := by
  refine ⟨(runsModel_dedup hashFn serialize runs rows0 hrow hids).2, ?_⟩
  intro st pack hk hex
  simp only [processPackLoop]
  exact packFold_cleared_of_mem hashFn serialize pack _ hk hex

theorem GitEnrichItems_hash_dedup_witness :
    (∃ row ∈ [c2row], row.hash = gs "h") ∧
    (∀ run ∈ c2runs, ∀ pack ∈ run.2, ∀ c ∈ pack.1, c.id ≠ gs "h") ∧
    ∀ c ∈ (runsModel c2hashFn c2serialize [c2row] c2runs).2,
      createHash c2hashFn c ≠ gs "h" :=
  ⟨⟨c2row, List.mem_singleton_self _, rfl⟩, by decide,
    (GitEnrichItems_hash_dedup c2hashFn c2serialize (gs "h") [c2row] c2runs
      ⟨c2row, List.mem_singleton_self _, rfl⟩ (by decide)).1⟩

/-- In the hot-repository branch the cross-run dedup fails across
shards: the persisted store holds a first-half-shard row whose hash
equals the payload hash of the incoming commit, but a run resuming in
the second half of the year loads only the (absent) second-half shard,
so `isHashCreated` and `isCommitCreated` both miss and the commit is
re-published as `commit.created` before any shard transition. -/
theorem GitEnrichItems_hot_shard_cex :
    lookupKey hotStore (CommitsByYearHalfCacheFile 2024 YearFirstHalf) = some [c2row] ∧
    c2row.hash = createHash c2hashFn c2commit ∧
    (processPackLoopHot c2hashFn (hotRunInit hotStore 2024 true true)
        [c2commit]).created = [c2commit] := by decide

end InsightsGit
